import Mathlib

/-!
Verification of the `UniTable` text-table rendering engine
(`Code/pylib/unitable.py`) against its natural-language specification.

The embedding below translates the Python source into Lean definitions.
Character strings are modelled as `List Char`.  External collaborators that
the source consumes but does not implement (the `wcwidth` display-width
function, Python's `textwrap.wrap`, Python's `float`/`%`-formatting builtins)
are modelled from the specification's description of their interfaces; each
such model carries a doc comment saying so.  Everything else is translated
directly from the source.
-/

set_option linter.unusedVariables false

namespace UniTable

/-- Character strings, modelled as lists of characters. -/
abbrev Str := List Char

/-- The ASCII escape character `\x1b` (`\033` in the Python source). -/
def escChar : Char := Char.ofNat 27

/-- Parameter bytes of a CSI escape sequence: the regex class `[0-?]`
(0x30–0x3F), as in the source's `ansi_escape` and escape-continuity
regexes. -/
def isParamByte (c : Char) : Bool := 0x30 ≤ c.toNat && c.toNat ≤ 0x3F

/-- Intermediate bytes of a CSI escape sequence: the regex class from space
to slash (0x20–0x2F). -/
def isIntermByte (c : Char) : Bool := 0x20 ≤ c.toNat && c.toNat ≤ 0x2F

/-- Final bytes of a CSI escape sequence: the regex class `[@-~]`
(0x40–0x7E). -/
def isFinalByte (c : Char) : Bool := 0x40 ≤ c.toNat && c.toNat ≤ 0x7E

/-- Single-character escapes: the regex class `[@-Z\\-_]` in the source's
`ansi_escape` pattern (an escape marker followed by either one byte in
this class or a full CSI sequence). -/
def isSingleEscByte (c : Char) : Bool :=
  (0x40 ≤ c.toNat && c.toNat ≤ 0x5A) || (0x5C ≤ c.toNat && c.toNat ≤ 0x5F)

/-- Scanner state for the `ansi_escape.sub('', s)` stripping scan:
`norm` = outside any candidate match, `esc` = just read `\x1b`,
`csi ps im` = inside `\x1b[`, having read parameter bytes `ps` and
intermediate bytes `im`. -/
inductive StripState where
  | norm : StripState
  | esc : StripState
  | csi : Str → Str → StripState

/-- One-pass scanner equivalent to `re.sub(ansi_escape, '', s)`.
When a candidate match fails, `re` restarts scanning one character after the
candidate's `\x1b`; since none of the characters consumed after that `\x1b`
can itself be `\x1b` (the classes `[`/param/intermediate exclude 0x1B), this
is the same as emitting the buffered characters and re-examining only the
character that caused the failure, which is what the automaton does. -/
def stripRun : StripState → Str → Str
  | .norm, [] => []
  | .esc, [] => [escChar]
  | .csi ps im, [] => escChar :: '[' :: (ps ++ im)
  | .norm, c :: r => if c = escChar then stripRun .esc r else c :: stripRun .norm r
  | .esc, c :: r =>
      if isSingleEscByte c then stripRun .norm r
      else if c = '[' then stripRun (.csi [] []) r
      else if c = escChar then escChar :: stripRun .esc r
      else escChar :: c :: stripRun .norm r
  | .csi ps im, c :: r =>
      if im.isEmpty && isParamByte c then stripRun (.csi (ps ++ [c]) im) r
      else if isIntermByte c then stripRun (.csi ps (im ++ [c])) r
      else if isFinalByte c then stripRun .norm r
      else if c = escChar then (escChar :: '[' :: (ps ++ im)) ++ stripRun .esc r
      else (escChar :: '[' :: (ps ++ im)) ++ c :: stripRun .norm r

/-- `StringLengthCalculator`'s escape removal:
`self.ansi_escape.sub('', string)`. -/
def stripAnsi (s : Str) : Str := stripRun .norm s

/-- Modelled collaborator (spec §2, §6): the wide (East-Asian full-width)
code-point test of the `wcwidth` library, covering the standard wide ranges
of the Basic Multilingual Plane and the supplementary ideographic planes. -/
def isWideChar (c : Char) : Bool :=
  let n := c.toNat
  (0x1100 ≤ n && n ≤ 0x115F) || (0x2E80 ≤ n && n ≤ 0x303E) ||
  (0x3041 ≤ n && n ≤ 0x33FF) || (0x3400 ≤ n && n ≤ 0x4DBF) ||
  (0x4E00 ≤ n && n ≤ 0x9FFF) || (0xA000 ≤ n && n ≤ 0xA4CF) ||
  (0xAC00 ≤ n && n ≤ 0xD7A3) || (0xF900 ≤ n && n ≤ 0xFAFF) ||
  (0xFE30 ≤ n && n ≤ 0xFE4F) || (0xFF00 ≤ n && n ≤ 0xFF60) ||
  (0xFFE0 ≤ n && n ≤ 0xFFE6) || (0x20000 ≤ n && n ≤ 0x3FFFD)

/-- Modelled collaborator (spec §4.1, §6): per-character display width as in
the `wcwidth` library: control characters are unprintable (−1), combining
marks are zero-width, wide code points occupy two cells, everything else
one. -/
def charWcwidth (c : Char) : Int :=
  let n := c.toNat
  if n = 0 then 0
  else if n < 32 || n = 127 then -1
  else if 0x300 ≤ n && n ≤ 0x36F then 0
  else if isWideChar c then 2 else 1

/-- Modelled collaborator (spec §4.1, §6): `wcswidth` — the display width of
a string, or −1 when any character is unprintable. -/
def wcswidthInt : Str → Int
  | [] => 0
  | c :: r =>
      let w := charWcwidth c
      let v := wcswidthInt r
      if w < 0 then -1 else if v < 0 then -1 else w + v

/-- `StringLengthCalculator.len`: the visible length of a string, with ANSI
escape sequences removed before measuring. -/
def slcLen (s : Str) : Int := wcswidthInt (stripAnsi s)

/-- Python whitespace characters, as normalised by `textwrap`'s
`replace_whitespace` and by `str.split()`/`str.strip()`. -/
def isPySpace (c : Char) : Bool :=
  c = ' ' || c = '\t' || c = '\n' || c = '\r' || c = Char.ofNat 11 || c = Char.ofNat 12

/-- Splits a string into maximal runs of whitespace and non-whitespace,
with each whitespace character replaced by a space (`textwrap`'s chunking
with `replace_whitespace=True`).  `acc` is the reversed current run,
`inWS` whether it is a whitespace run. -/
def chunksAux : Str → Str → Bool → List Str
  | [], acc, _ => if acc.isEmpty then [] else [acc.reverse]
  | c :: r, acc, inWS =>
      let cw := isPySpace c
      let c' := if cw then ' ' else c
      if acc.isEmpty then chunksAux r [c'] cw
      else if cw = inWS then chunksAux r (c' :: acc) inWS
      else acc.reverse :: chunksAux r [c'] cw

/-- Chunking step of the modelled `textwrap.wrap`. -/
def mkChunks (s : Str) : List Str := chunksAux s [] false

/-- Whether a chunk is a (nonempty) whitespace chunk — Python's
`chunk.strip() == ''` for the chunks produced by `mkChunks`. -/
def isWSChunk (ch : Str) : Bool := !ch.isEmpty && ch.all (· = ' ')

/-- Greedy filling of one line: move chunks onto the current line while
`cur_len + len(chunk) ≤ width`.  Arguments: remaining chunks, current
length, reversed current line.  Returns (reversed line, its length,
remaining chunks). -/
def takeFit (w : Nat) : List Str → Nat → List Str → (List Str × Nat × List Str)
  | [], len, acc => (acc, len, [])
  | ch :: rest, len, acc =>
      if len + ch.length ≤ w then takeFit w rest (len + ch.length) (ch :: acc)
      else (acc, len, ch :: rest)

/-- Fuel bound for the line loop of the modelled `textwrap.wrap`: every
iteration consumes at least one chunk or one character. -/
def chunksFuel (chunks : List Str) : Nat :=
  chunks.foldl (fun a ch => a + ch.length) 0 + chunks.length + 1

/-- The `_handle_long_word` step of the modelled `textwrap.wrap`: when the
next chunk is longer than the width, break it at the space left on the
current line (at least one character when the width is below 1). -/
def handleLong (w : Nat) (tf : List Str × Nat × List Str) : List Str × List Str :=
  match tf.2.2 with
  | ch :: rest2 =>
      if w < ch.length then
        let spaceLeft := if w < 1 then 1 else w - tf.2.1
        (ch.take spaceLeft :: tf.1, ch.drop spaceLeft :: rest2)
      else (tf.1, ch :: rest2)
  | [] => (tf.1, [])

/-- The drop-trailing-whitespace step of the modelled `textwrap.wrap`. -/
def dropTrailWS (lineRev : List Str) : List Str :=
  match lineRev with
  | t :: more => if isWSChunk t then more else t :: more
  | [] => []

/-- Modelled collaborator (spec §4.5, §6): the line loop of Python
`textwrap.wrap` with its default settings — drop leading whitespace chunks
once a line has been emitted, fill greedily, break a chunk longer than the
width into the remaining space (`break_long_words`), drop a trailing
whitespace chunk, and emit the line if nonempty. -/
def wrapLoop (w : Nat) : Nat → List Str → Bool → List Str
  | 0, _, _ => []
  | _ + 1, [], _ => []
  | fuel + 1, ch0 :: rest0, hasLines =>
      let chunks := if hasLines && isWSChunk ch0 then rest0 else ch0 :: rest0
      match chunks with
      | [] => []
      | cx :: cxs =>
        let st := handleLong w (takeFit w (cx :: cxs) 0 [])
        let lineRev := dropTrailWS st.1
        if lineRev.isEmpty then wrapLoop w fuel st.2 hasLines
        else (lineRev.reverse).flatten :: wrapLoop w fuel st.2 true

/-- Modelled collaborator (spec §4.5, §6): the module-level `textwrapper`
function, i.e. Python `textwrap.wrap(txt, width)` with default settings.
Python raises `ValueError` when the width is not positive. -/
def textwrapper (txt : Str) (w : Nat) : Except Unit (List Str) :=
  if w = 0 then .error ()
  else .ok (wrapLoop w (chunksFuel (mkChunks txt)) (mkChunks txt) false)

/-- Python `sep.join(parts)`: the parts joined by the separator. -/
def joinSep (sep : Str) : List Str → Str
  | [] => []
  | [x] => x
  | x :: y :: rest => x ++ sep ++ joinSep sep (y :: rest)

/-- Python `str.split()` with no arguments: the non-whitespace runs. -/
def pySplit (s : Str) : List Str :=
  (mkChunks s).filter (fun ch => !(isWSChunk ch))

/-- Joining a list of words with single spaces (`' '.join(line)`). -/
def joinSp (ws : List Str) : Str := joinSep [' '] ws

/-- The word loop of `ColorAwareWrapper.wrap` (translated from the source):
flush the current line whenever the visible length of the joined line plus
the visible length of the next word plus the word count exceeds the
width. -/
def cawGo (width : Int) : List Str → List Str → List (List Str)
  | [], line => if line.isEmpty then [] else [line]
  | word :: rest, line =>
      if slcLen (joinSp line) + slcLen word + (line.length : Int) > width then
        line :: cawGo width rest [word]
      else cawGo width rest (line ++ [word])

/-- `ColorAwareWrapper.wrap`: wraps to `width` measuring visible lengths
with `StringLengthCalculator.len`, returning the lines joined by
newlines.  (Constructed by `UniTable.__init__` as `self._cwrap`.) -/
def colorAwareWrap (text : Str) (width : Int) : Str :=
  joinSep ['\n'] ((cawGo width (pySplit text) []).map joinSp)

/-- Value of a list of decimal digit characters. -/
def digitsVal (ds : Str) : Nat := ds.foldl (fun a c => a * 10 + (c.toNat - 48)) 0

/-- Modelled collaborator (spec §4.2): Python `float(x)` restricted to the
domain of decimal integer literals of at most eight digits (optionally
signed).  On this domain the float value is exact and integral; all other
strings fail to coerce, which the source turns into `FallbackToText`. -/
def pyParseNum (s : Str) : Option Int :=
  let (neg, ds) := match s with
    | '-' :: r => (true, r)
    | _ => (false, s)
  if !ds.isEmpty && ds.length ≤ 8 && ds.all Char.isDigit then
    some ((if neg then -1 else 1) * (digitsVal ds : Int))
  else none

/-- Decimal representation of an integer, as Python `str(int)`. -/
def intRepr (v : Int) : Str := (toString v).data

/-- Thousands-separated decimal representation, as Python's `:,d` format. -/
def commaRepr (v : Int) : Str :=
  let ds := (toString v.natAbs).data
  let withCommas :=
    (List.range ds.length).flatMap
      (fun i => (if i ≠ 0 && (ds.length - i) % 3 = 0 then [','] else []) ++ (ds.get? i).toList)
  (if v < 0 then ['-'] else []) ++ withCommas

/-- Modelled collaborator (spec §4.2): Python's fixed-point formatting
`'%.*f' % (n, v)` on the modelled (integral) value domain. -/
def fixedRepr (n : Nat) (v : Int) : Str :=
  intRepr v ++ (if n = 0 then [] else '.' :: List.replicate n '0')

/-- Modelled collaborator (spec §4.2): Python's scientific-notation
formatting `'%.*e' % (n, v)` on the modelled (integral) value domain,
rounding half away from zero when the precision drops digits. -/
def expRepr (n : Nat) (v : Int) : Str :=
  let a := v.natAbs
  let ds := (toString a).data
  let k := ds.length
  let e0 := k - 1
  let scaled :=
    if k - 1 ≤ n then a * 10 ^ (n - (k - 1))
    else (a + 5 * 10 ^ (k - 2 - n)) / 10 ^ (k - 1 - n)
  let over := (toString scaled).data.length > n + 1
  let mant := if over then scaled / 10 else scaled
  let e := if over then e0 + 1 else e0
  let ms := (toString mant).data
  let mstr := match ms with
    | d :: rest =>
        d :: (if n = 0 then [] else '.' :: (rest ++ List.replicate (n - rest.length) '0'))
    | [] => []
  let estr := (if e < 10 then '0' :: (toString e).data else (toString e).data)
  (if v < 0 then ['-'] else []) ++ mstr ++ 'e' :: '+' :: estr

/-- The exceptions the table code can raise.  `arraySize expected got` is
`ArraySizeError` from `_check_row_size`; `tableLinesSize got` is
`ArraySizeError` from the glyph-table setters; `widthTooSmall maxW minimum`
is the `ValueError` raised by `_compute_cols_width` when `max_width` cannot
accommodate the table, carrying the stated minimum viable width;
`valueError`, `typeError`, `keyError` and `indexError` are the
corresponding Python builtin exceptions. -/
inductive UniErr where
  | arraySize : Nat → Nat → UniErr
  | tableLinesSize : Nat → UniErr
  | widthTooSmall : Nat → Int → UniErr
  | valueError : UniErr
  | typeError : UniErr
  | keyError : UniErr
  | indexError : UniErr
deriving DecidableEq, Repr

/-- The 15 border-drawing glyph slots, in the order unpacked by
`_set_table_lines`: `ew, ns, se, sw, ne, nw, nse, nsw, sew, new, nsew,
hew, hnse, hnsw, hnsew`. -/
structure TableChars where
  ew : Str
  ns : Str
  se : Str
  sw : Str
  ne : Str
  nw : Str
  nse : Str
  nsw : Str
  sew : Str
  new : Str
  nsew : Str
  hew : Str
  hnse : Str
  hnsw : Str
  hnsew : Str
deriving DecidableEq, Repr

/-- The mutable state of a `UniTable` instance.  Attributes that the source
creates lazily (`_width`, `_header_align`, `_align`, `_valign`, `_dtype`,
checked via `hasattr`) are `Option`s; `rowSize` is `none` while
`self._row_size` is `None`; `maxWidth = 0` encodes the `False` stored by
`set_max_width` for non-positive arguments (size unlimited). -/
structure UniState where
  hasBorder : Bool
  hasHeader : Bool
  header : List Str
  rows : List (List Str)
  rowSize : Option Nat
  deco : Nat
  pad : Nat
  precision : Nat
  maxWidth : Nat
  style : Str
  tchars : TableChars
  widthOpt : Option (List Nat)
  headerAlignOpt : Option (List Char)
  alignOpt : Option (List Char)
  valignOpt : Option (List Char)
  dtypeOpt : Option (List Char)
deriving DecidableEq, Repr

/-- Decoration-flag constants `BORDER`, `HEADER`, `HLINES`, `VLINES`. -/
def BORDER : Nat := 1

/-- `HEADER = 1 << 1`. -/
def HEADER : Nat := 2

/-- `HLINES = 1 << 2`. -/
def HLINES : Nat := 4

/-- `VLINES = 1 << 3`. -/
def VLINES : Nat := 8

/-- `has_vlines`: whether the `VLINES` bit is set in `self._deco`. -/
def hasVlines (s : UniState) : Bool := s.deco &&& VLINES > 0

/-- `has_hlines`: whether the `HLINES` bit is set in `self._deco`. -/
def hasHlines (s : UniState) : Bool := s.deco &&& HLINES > 0

/-- `_set_table_lines`: install a 15-glyph table, or raise
`ArraySizeError` for any other length. -/
def setTableLinesFull (s : UniState) (tl : List Str) : Except UniErr UniState :=
  match tl with
  | [ew, ns, se, sw, ne, nw, nse, nsw, sew, new, nsew, hew, hnse, hnsw, hnsew] =>
      .ok { s with tchars := ⟨ew, ns, se, sw, ne, nw, nse, nsw, sew, new, nsew, hew, hnse, hnsw, hnsew⟩ }
  | _ => .error (.tableLinesSize tl.length)

/-- `set_table_lines`: accept a 15-glyph table directly, expand a 4-glyph
shorthand `[horizontal, vertical, corner, header]` by reusing the corner
glyph in all nine junction slots, and raise `ArraySizeError` otherwise. -/
def setTableLines (s : UniState) (tl : List Str) : Except UniErr UniState :=
  if tl.length = 15 then setTableLinesFull s tl
  else match tl with
  | [hor, ver, cor, hea] =>
      setTableLinesFull s [hor, ver, cor, cor, cor, cor, cor, cor, cor, cor, cor, hea, cor, cor, cor]
  | _ => .error (.tableLinesSize tl.length)

/-- A Python string seen as a list of one-character glyph strings (how a
string argument to `set_table_lines` is unpacked). -/
def glyphs (s : String) : List Str := s.data.map (fun c => [c])

/-- The `STYLES` dictionary. -/
def STYLES (name : Str) : Option (List Str) :=
  if name = "ascii".data then some (glyphs "-|+-")
  else if name = "ascii2".data then some (glyphs "-|+=")
  else if name = "bold".data then some (glyphs "━┃┏┓┗┛┣┫┳┻╋━┣┫╋")
  else if name = "double".data then some (glyphs "═║╔╗╚╝╠╣╦╩╬═╠╣╬")
  else if name = "light2".data then some (glyphs "─│┌┐└┘├┤┬┴┼═╞╡╪")
  else if name = "round".data then some (glyphs "─│╭╮╰╯├┤┬┴┼─├┤┼")
  else if name = "round2".data then some (glyphs "─│╭╮╰╯├┤┬┴┼═╞╡╪")
  else if name = "light".data then some (glyphs "─│┌┐└┘├┤┬┴┼─├┤┼")
  else if name = "none".data then some (List.replicate 15 [])
  else if name = "none2".data then some (List.replicate 15 [])
  else none

/-- `set_style`: record the style name, then install its glyph table; an
unknown name raises `ValueError`. -/
def setStyle (s : UniState) (name : Str) : Except UniErr UniState :=
  let s := { s with style := name }
  match STYLES name with
  | some tl => setTableLines s tl
  | none => .error .valueError

/-- `set_decorations`. -/
def setDecorations (s : UniState) (d : Nat) : UniState := { s with deco := d }

/-- `_check_row_size`: establish the row size from the first non-falsy
value, and raise `ArraySizeError` when a later array's length differs.
Python's `if not self._row_size` treats both `None` — never set — and `0`
— set by an empty array — as unset. -/
def checkRowSize (s : UniState) (len : Nat) : Except UniErr UniState :=
  if s.rowSize = none || s.rowSize = some 0 then .ok { s with rowSize := some len }
  else if s.rowSize ≠ some len then .error (.arraySize (s.rowSize.getD 0) len)
  else .ok s

/-- `set_header_align`. -/
def setHeaderAlign (s : UniState) (a : List Char) : Except UniErr UniState := do
  let s ← checkRowSize s a.length
  .ok { s with headerAlignOpt := some a }

/-- `set_cols_align`. -/
def setColsAlign (s : UniState) (a : List Char) : Except UniErr UniState := do
  let s ← checkRowSize s a.length
  .ok { s with alignOpt := some a }

/-- `set_cols_valign`. -/
def setColsValign (s : UniState) (a : List Char) : Except UniErr UniState := do
  let s ← checkRowSize s a.length
  .ok { s with valignOpt := some a }

/-- `set_cols_dtype`. -/
def setColsDtype (s : UniState) (a : List Char) : Except UniErr UniState := do
  let s ← checkRowSize s a.length
  .ok { s with dtypeOpt := some a }

/-- `set_cols_width`: check the row size, then reject any width less than
or equal to zero with `ValueError` (`reduce(min, array)` on an empty array
raises `TypeError`).  The argument is already a list of integers; the
source's `int` coercion is the identity there. -/
def setColsWidth (s : UniState) (a : List Int) : Except UniErr UniState := do
  let s ← checkRowSize s a.length
  match a with
  | [] => .error .typeError
  | h :: t =>
      if t.foldl min h ≤ 0 then .error .valueError
      else .ok { s with widthOpt := some (a.map Int.toNat) }

/-- `set_precision`: require an integer `≥ 0`. -/
def setPrecision (s : UniState) (w : Int) : Except UniErr UniState :=
  if w < 0 then .error .valueError
  else .ok { s with precision := w.toNat }

/-- `set_padding`: require an integer `≥ 0` (the guard is `amount < 0`, so
zero is accepted even though the error message speaks of "greater then
0"). -/
def setPadding (s : UniState) (amount : Int) : Except UniErr UniState :=
  if amount < 0 then .error .valueError
  else .ok { s with pad := amount.toNat }

/-- `set_max_width`: a non-positive argument stores `False` (unlimited),
encoded here as `0`. -/
def setMaxWidth (s : UniState) (w : Int) : UniState :=
  { s with maxWidth := if w > 0 then w.toNat else 0 }

/-- `header`: check the row size and store the values (which are already
strings here, so `obj2unicode` is the identity). -/
def headerOp (s : UniState) (a : List Str) : Except UniErr UniState := do
  let s ← checkRowSize s a.length
  .ok { s with header := a }

/-- `_fmt_auto` on a successfully coerced value `f` of the modelled
(integral, at most eight-digit) domain: magnitude above `1e8` is formatted
exponentially; a NaN never arises here; an integral value — always, on
this domain — is formatted as an integer. -/
def fmtAuto (n : Nat) (f : Int) : Str :=
  if 100000000 < f.natAbs then expRepr n f else intRepr f

/-- `_str`: format one cell according to the column's dtype character,
falling back to text when numeric coercion fails (`FallbackToText`).
Raw cell values are modelled as strings; an unknown dtype character
raises `KeyError` from the `format_map` lookup, and a column index past
the end of `self._dtype` raises `IndexError`. -/
def strFmt (s : UniState) (i : Nat) (x : Str) : Except UniErr Str :=
  let dtypes := s.dtypeOpt.getD []
  match dtypes.get? i with
  | none => .error .indexError
  | some d =>
      if d = 'a' then
        match pyParseNum x with
        | some f => .ok (fmtAuto s.precision f)
        | none => .ok x
      else if d = 'i' then
        match pyParseNum x with
        | some f => .ok (intRepr f)
        | none => .ok x
      else if d = 'I' then
        match pyParseNum x with
        | some f => .ok (commaRepr f)
        | none => .ok x
      else if d = 'f' then
        match pyParseNum x with
        | some f => .ok (fixedRepr s.precision f)
        | none => .ok x
      else if d = 'e' then
        match pyParseNum x with
        | some f => .ok (expRepr s.precision f)
        | none => .ok x
      else if d = 't' then .ok x
      else .error .keyError

/-- The cell-formatting loop of `add_row`, from column index `i`. -/
def strCellsGo (s : UniState) : Nat → List Str → Except UniErr (List Str)
  | _, [] => .ok []
  | i, x :: xs => do
      let c ← strFmt s i x
      let cs ← strCellsGo s (i + 1) xs
      .ok (c :: cs)

/-- The cell-formatting loop of `add_row`. -/
def strCells (s : UniState) (a : List Str) : Except UniErr (List Str) :=
  strCellsGo s 0 a

/-- `add_row`: check the row size, create the default all-automatic dtype
array when absent, format every cell, and append the formatted row. -/
def addRow (s : UniState) (a : List Str) : Except UniErr UniState := do
  let s ← checkRowSize s a.length
  let s := if s.dtypeOpt = none
           then { s with dtypeOpt := some (List.replicate (s.rowSize.getD 0) 'a') }
           else s
  let cells ← strCells s a
  .ok { s with rows := s.rows ++ [cells] }

/-- `add_rows` with `header=True`: the first row becomes the header. -/
def addRowsH (s : UniState) (rows : List (List Str)) : Except UniErr UniState := do
  match rows with
  | [] => .error .indexError
  | h :: t =>
      let s ← headerOp s h
      t.foldlM addRow s

/-- The state produced by `UniTable()` with the default arguments: all
decoration flags on, the `light` style installed, padding 1, precision 3
and maximum width 80. -/
def initState : UniState :=
  { hasBorder := true
    hasHeader := true
    header := []
    rows := []
    rowSize := none
    deco := VLINES ||| HLINES ||| BORDER ||| HEADER
    pad := 1
    precision := 3
    maxWidth := 80
    style := "light".data
    tchars := ⟨['─'], ['│'], ['┌'], ['┐'], ['└'], ['┘'], ['├'], ['┤'], ['┬'], ['┴'], ['┼'],
               ['─'], ['├'], ['┤'], ['┼']⟩
    widthOpt := none
    headerAlignOpt := none
    alignOpt := none
    valignOpt := none
    dtypeOpt := none }

/-- Python `cell.split('\n')`: the newline-separated logical lines of a
cell (an empty cell yields one empty line, a trailing newline an empty
last line). -/
def splitNl : Str → List Str
  | [] => [[]]
  | c :: r =>
      if c = '\n' then [] :: splitNl r
      else match splitNl r with
           | p :: ps => (c :: p) :: ps
           | [] => [[c]]

/-- The width of one logical line of a cell for `_len_cell`: tab-separated
parts accumulate visible width, with every tab stop rounded up to the next
multiple of 8 (Python floor division on a possibly negative running
width). -/
def lenCellLine (line : Str) : Int :=
  let parts := line.splitOn '\t'
  (List.range parts.length).foldl
    (fun length i =>
      let length := length + slcLen (parts.getD i [])
      if i + 1 < parts.length then (Int.fdiv length 8 + 1) * 8 else length)
    0

/-- `_len_cell`: the natural width of a cell — the maximum width over its
newline-separated logical lines, starting from 0. -/
def lenCell (cell : Str) : Nat :=
  ((splitNl cell).foldl (fun maxi l => max maxi (lenCellLine l)) 0).toNat

/-- The per-row accumulation step of `_compute_cols_width`: widen the
column's maximum if the index exists, append a new column otherwise (the
source's `except (TypeError, IndexError)` branch, which fires for every
remaining cell once the index runs past the accumulated list). -/
def accumRow : List Nat → List Str → List Nat
  | [], row => row.map lenCell
  | maxi, [] => maxi
  | m :: ms, c :: cs => max m (lenCell c) :: accumRow ms cs

/-- The natural column widths: header cells first (when a header exists),
then every row. -/
def naturalWidths (s : UniState) : List Nat :=
  s.rows.foldl accumRow (s.header.map lenCell)

/-- The round-robin redistribution loop of `_compute_cols_width`:
increment the next column still below its natural width, consuming one
unit of budget, until the budget is exhausted.  `fuel` bounds the loop;
inside the shrinking branch the budget is strictly below the total natural
width, so the loop always terminates and the fuel supplied by
`computeColsWidthFn` is sufficient. -/
def rrLoop (maxi : List Nat) : Nat → List Nat → Nat → Nat → List Nat
  | 0, newmaxi, _, _ => newmaxi
  | _ + 1, newmaxi, _, 0 => newmaxi
  | fuel + 1, newmaxi, i, avail + 1 =>
      if newmaxi.getD i 0 < maxi.getD i 0 then
        rrLoop maxi fuel (newmaxi.set i (newmaxi.getD i 0 + 1)) ((i + 1) % maxi.length) avail
      else
        rrLoop maxi fuel newmaxi ((i + 1) % maxi.length) (avail + 1)

/-- `_compute_cols_width` without its cache check: compute natural widths;
when a bounded `max_width` is exceeded, either raise the width error —
stating the minimum viable width `ncols + deco_width` — or redistribute
the remaining budget round-robin. -/
def computeColsWidthFn (s : UniState) : Except UniErr (List Nat) :=
  let maxi := naturalWidths s
  let ncols := maxi.length
  let contentWidth := maxi.sum
  let decoWidth : Int := 3 * ((ncols : Int) - 1) + (if s.hasBorder then 4 else 0)
  if s.maxWidth ≠ 0 && (contentWidth : Int) + decoWidth > (s.maxWidth : Int) then
    if (s.maxWidth : Int) < (ncols : Int) + decoWidth then
      .error (.widthTooSmall s.maxWidth ((ncols : Int) + decoWidth))
    else
      let avail := ((s.maxWidth : Int) - decoWidth).toNat
      .ok (rrLoop maxi ((avail + 1) * (ncols + 1)) (List.replicate ncols 0) 0 avail)
  else .ok maxi

/-- The caching wrapper around the width computation: `_compute_cols_width`
returns immediately when `self._width` already exists, and stores the
computed vector otherwise. -/
def computeColsWidthCache (s : UniState) : Except UniErr UniState :=
  if s.widthOpt.isSome then .ok s
  else do
    let ws ← computeColsWidthFn s
    .ok { s with widthOpt := some ws }

/-- The ANSI reset sequence `\033[0m` (`self.ansi_norm`). -/
def resetSeq : Str := [escChar, '[', '0', 'm']

/-- Whether a reset sequence occurs anywhere in the string (the regex
lookahead `.*\033\[0m`). -/
def containsReset : Str → Bool
  | [] => false
  | c :: r => (c = escChar && r.take 3 = ['[', '0', 'm']) || containsReset r

/-- Scanner state for the `non_reset_not_followed_by_reset.findall` scan,
mirroring `StripState` but restricted to the CSI form of that regex. -/
inductive FindState where
  | norm : FindState
  | esc : FindState
  | csi : Str → Str → FindState

/-- One-pass scanner equivalent to
`non_reset_not_followed_by_reset.findall(line)`: collect every CSI escape
sequence that is not the reset sequence — the `(?!0m)` lookahead — and is
not followed anywhere later in the line by a reset — the `(?!.*\033\[0m)`
lookahead.  As for `stripRun`, a failed candidate restarts at the character
that caused the failure. -/
def findRun : FindState → Str → List Str
  | _, [] => []
  | .norm, c :: r => if c = escChar then findRun .esc r else findRun .norm r
  | .esc, c :: r =>
      if c = '[' then findRun (.csi [] []) r
      else if c = escChar then findRun .esc r
      else findRun .norm r
  | .csi ps im, c :: r =>
      if im.isEmpty && isParamByte c then findRun (.csi (ps ++ [c]) im) r
      else if isIntermByte c then findRun (.csi ps (im ++ [c])) r
      else if isFinalByte c then
        let content := ps ++ im ++ [c]
        let e := escChar :: '[' :: content
        if content.take 2 = ['0', 'm'] || containsReset r then findRun .norm r
        else e :: findRun .norm r
      else if c = escChar then findRun .esc r
      else findRun .norm r

/-- The concatenation `"".join(non_reset_not_followed_by_reset.findall(l))`
computed by `_process_lines`. -/
def unterminatedOf (l : Str) : Str := (findRun .norm l).flatten

/-- One line step of `_process_lines`: prepend the pending unterminated
sequences, recompute them from the resulting line, and append a reset when
any remain.  Returns the processed line and the new pending buffer. -/
def procLine (pending line : Str) : Str × Str :=
  let l := pending ++ line
  let u := unterminatedOf l
  (if u.isEmpty then l else l ++ resetSeq, u)

/-- `_process_lines` over the physical lines of one cell, threading the
pending buffer. -/
def procCellLines (pending : Str) : List Str → (List Str × Str)
  | [] => ([], pending)
  | l :: ls =>
      let (l', p') := procLine pending l
      let (ls', p'') := procCellLines p' ls
      (l' :: ls', p'')

/-- `_process_lines` over a list of cells from a given pending buffer: the
buffer left by each cell's last line is carried into the next cell. -/
def processCells (pending : Str) : List (List Str) → List (List Str)
  | [] => []
  | cell :: cells =>
      let (cell', p') := procCellLines pending cell
      cell' :: processCells p' cells

/-- `_process_lines` over all cells of a row, starting with an empty
pending buffer. -/
def processLines (cells : List (List Str)) : List (List Str) :=
  processCells [] cells

/-- Python's `str.strip() == ''` test used by `_splitit` to preserve blank
logical lines. -/
def isBlankStr (s : Str) : Bool := s.all isPySpace

/-- The logical-line loop of `_splitit`'s wrapping step: blank logical
lines are preserved verbatim as empty physical lines, and every other
logical line is word-wrapped to the column width with `textwrapper`
(whose `ValueError` on a non-positive width propagates). -/
def wrapParts (width : Nat) : List Str → Except UniErr (List Str)
  | [] => .ok []
  | c :: cs => do
      let first ←
        if isBlankStr c then Except.ok [([] : Str)]
        else match textwrapper c width with
          | .ok ls => Except.ok ls
          | .error _ => Except.error UniErr.valueError
      let rest ← wrapParts width cs
      .ok (first ++ rest)

/-- The wrapping step of `_splitit` for one cell: split on explicit
newlines and wrap each logical line. -/
def wrapCell (cell : Str) (width : Nat) : Except UniErr (List Str) :=
  wrapParts width (splitNl cell)

/-- The vertical-alignment step of `_splitit` for one cell.  For middle
alignment the source calls `self._vislen.len(cell)` on a *list* of lines,
which raises `TypeError` inside `re.sub`; bottom and top alignment use the
list's length. -/
def valignCell (maxLines : Nat) (valign : Char) (cell : List Str) :
    Except UniErr (List Str) :=
  if valign = 'm' then .error .typeError
  else if valign = 'b' then .ok (List.replicate (maxLines - cell.length) [] ++ cell)
  else .ok (cell ++ List.replicate (maxLines - cell.length) [])

/-- The cell loop of `_splitit`'s wrapping step, over the cells of the
line zipped with the column widths. -/
def wrapAll : List Str → List Nat → Except UniErr (List (List Str))
  | cell :: line, w :: ws => do
      let c ← wrapCell cell w
      let cs ← wrapAll line ws
      .ok (c :: cs)
  | _, _ => .ok []

/-- The vertical-alignment loop of `_splitit`, over the wrapped cells
zipped with the per-column vertical alignments; cells beyond the zip are
left as they are.  Header lines force top alignment for every cell. -/
def valignAll (maxLines : Nat) (isheader : Bool) :
    List (List Str) → List Char → Except UniErr (List (List Str))
  | cells, [] => .ok cells
  | [], _ => .ok []
  | cell :: cells, v :: vs => do
      let c ← valignCell maxLines (if isheader then 't' else v) cell
      let cs ← valignAll maxLines isheader cells vs
      .ok (c :: cs)

/-- `_splitit`: wrap every cell of the line to its column width, pad all
cells to the row's physical height — `reduce(max, ...)` on an empty cell
list raises `TypeError` — according to the column's vertical alignment
(headers are always top-aligned), and run the ANSI continuity repair over
the result. -/
def splitit (s : UniState) (ws : List Nat) (line : List Str) (isheader : Bool) :
    Except UniErr (List (List Str)) := do
  let wrapped ← wrapAll line ws
  if wrapped.isEmpty then .error .typeError
  else
  let maxLines := (wrapped.map List.length).foldl max 0
  let padded ← valignAll maxLines isheader wrapped (s.valignOpt.getD [])
  .ok (processLines padded)

/-- Truncating (toward-zero) integer division: the value of Python's
`int(a / 2)` on an integer `a` and small divisor, matching the float
division plus `int()` truncation used by `_draw_line`'s centering. -/
def pyTrunc (a b : Int) : Int :=
  if 0 ≤ a then (a.toNat / b.toNat : Nat) else -((-a).toNat / b.toNat : Nat)

/-- One aligned cell segment of `_draw_line`: pad the cell line to the
column width with spaces on the side(s) selected by the alignment
character.  The fill count can be negative (a visible width beyond the
column width), in which case Python's negative string repetition yields no
padding.  `int(fill / 2 + fill % 2)` equals the truncation of
`(fill + 2 * (fill mod 2)) / 2` with Python's nonnegative `mod 2`. -/
def alignOne (align : Char) (width : Nat) (cellLine : Str) : Str :=
  let fill : Int := (width : Int) - slcLen cellLine
  if align = 'r' then List.replicate fill.toNat ' ' ++ cellLine
  else if align = 'c' then
    List.replicate (pyTrunc fill 2).toNat ' ' ++ cellLine ++
      List.replicate (pyTrunc (fill + 2 * (fill % 2)) 2).toNat ' '
  else cellLine ++ List.replicate fill.toNat ' '

/-- Python string repetition `g * n` for a glyph string. -/
def repGlyph (g : Str) (n : Nat) : Str := (List.replicate n g).flatten

/-- The padded cell separator of `_draw_line`: padding spaces around the
vertical glyph (or a space when vertical lines are off). -/
def cellSepOf (s : UniState) : Str :=
  List.replicate s.pad ' ' ++ (if hasVlines s then s.tchars.ns else [' ']) ++
    List.replicate s.pad ' '

/-- The cell loop of `_draw_line` for physical row `i`: the cells zipped
with the column widths and alignments, at column position `j` of `total`
columns; every cell except the last of the *cell list* is followed by the
padded separator.  Header lines take the alignment from the header
alignment array at the same position instead. -/
def lineSegs (s : UniState) (i : Nat) (total : Nat) (isheader : Bool)
    (haligns : List Char) :
    Nat → List (List Str) → List Nat → List Char → Str
  | _, [], _, _ => []
  | _, _ :: _, [], _ => []
  | _, _ :: _, _ :: _, [] => []
  | j, cell :: cells, w :: wvs, a :: als =>
      let cellLine := cell.getD i []
      let al := if isheader then haligns.getD j 'l' else a
      let seg := alignOne al w cellLine
      let sep := if j + 1 < total then cellSepOf s else []
      seg ++ sep ++ lineSegs s i total isheader haligns (j + 1) cells wvs als

/-- `_draw_line`: split and wrap the row's cells, then emit one output
line per physical row — `len(line[0])` many — each consisting of the left
border glyph and padding, the aligned cells with separators, and the
right padding and border glyph.  Indexing a header-alignment entry past
the end of an unset list (impossible once `_check_align` has run, which
`draw` guarantees) is modelled by the left-alignment default. -/
def drawLine (s : UniState) (ws : List Nat) (line : List Str) (isheader : Bool) :
    Except UniErr (List Str) := do
  let cells ← splitit s ws line isheader
  let H := (cells.getD 0 []).length
  let aligns := s.alignOpt.getD []
  let haligns := s.headerAlignOpt.getD []
  .ok ((List.range H).map (fun i =>
    let lb := if s.hasBorder then s.tchars.ns ++ List.replicate s.pad ' ' else []
    let rb := if s.hasBorder then List.replicate s.pad ' ' ++ s.tchars.ns else []
    lb ++ lineSegs s i cells.length isheader haligns 0 cells ws aligns ++ rb))

/-- The three line locations `TOP`, `MIDDLE`, `BOTTOM`. -/
inductive HlineLoc where
  | top : HlineLoc
  | mid : HlineLoc
  | bot : HlineLoc

/-- `_build_hline`: the row-separator line for a location — the empty
style `none` contributes no line at all; otherwise the horizontal glyph
(the header variant for the header separator) repeated to each column
width, joined by padded junction glyphs, with corner glyphs and padding
when a border is drawn.  Returns the emitted lines (zero or one). -/
def buildHline (s : UniState) (ws : List Nat) (isHeader : Bool) (loc : HlineLoc) :
    List Str :=
  if s.style = "none".data then []
  else
    let horiz := if isHeader then s.tchars.hew else s.tchars.ew
    let lmr := match loc with
      | .top => (s.tchars.se, s.tchars.sew, s.tchars.sw)
      | .mid =>
          if isHeader then (s.tchars.hnse, s.tchars.hnsew, s.tchars.hnsw)
          else (s.tchars.nse, s.tchars.nsew, s.tchars.nsw)
      | .bot => (s.tchars.ne, s.tchars.new, s.tchars.nw)
    let cellSep := repGlyph horiz s.pad ++ (if hasVlines s then lmr.2.1 else horiz) ++
      repGlyph horiz s.pad
    let hline := joinSep cellSep (ws.map (repGlyph horiz))
    if s.hasBorder then
      [lmr.1 ++ repGlyph horiz s.pad ++ hline ++ repGlyph horiz s.pad ++ lmr.2.2]
    else [hline]

/-- `_check_align`: fill in the default alignments — header centered, data
left, vertical top — for any alignment array not yet set.  Building a
default requires `self._row_size`; multiplying a list by `None` (possible
only for a table that never saw an insertion) raises `TypeError`. -/
def checkAlign (s : UniState) : Except UniErr UniState := do
  let fill := fun (o : Option (List Char)) (c : Char) =>
    match o, s.rowSize with
    | some a, _ => Except.ok (some a)
    | none, some n => Except.ok (some (List.replicate n c))
    | none, none => Except.error UniErr.typeError
  let ha ← fill s.headerAlignOpt 'c'
  let al ← fill s.alignOpt 'l'
  let va ← fill s.valignOpt 't'
  .ok { s with headerAlignOpt := ha, alignOpt := al, valignOpt := va }

/-- The data-row loop of `draw`: each row's lines, with a separator line
after every row except the last when the `HLINES` flag is set. -/
def bodyLines (s : UniState) (ws : List Nat) : List (List Str) → Except UniErr (List Str)
  | [] => .ok []
  | [r] => drawLine s ws r false
  | r :: r2 :: rest => do
      let rl ← drawLine s ws r false
      let sep := if hasHlines s then buildHline s ws false .mid else []
      let more ← bodyLines s ws (r2 :: rest)
      .ok (rl ++ sep ++ more)

/-- The rendering stage of `draw` after the width computation: fill
default alignments, then emit the top border line, the header lines and
header separator, the data rows with separators between rows, and the
bottom border line. -/
def drawBody (s0 : UniState) : Except UniErr (Option (List Str) × UniState) := do
  let s ← checkAlign s0
  let ws := s.widthOpt.getD []
  let top := if s.hasBorder then buildHline s ws false .top else []
  let hdr ←
    if !s.header.isEmpty then do
      let hl ← drawLine s ws s.header true
      pure (hl ++ (if s.hasHeader then buildHline s ws true .mid else []))
    else pure []
  let body ← bodyLines s ws s.rows
  let bot := if s.hasBorder then buildHline s ws false .bot else []
  .ok (some (top ++ hdr ++ body ++ bot), s)

/-- `draw`: nothing for an empty table; otherwise compute (or reuse) the
column widths and render.  The source accumulates the lines in a string
with one `\n` after each and drops the final character; the list of
physical lines collected here corresponds to that string through
`joinLines`. -/
def draw (s : UniState) : Except UniErr (Option (List Str) × UniState) :=
  if s.header.isEmpty && s.rows.isEmpty then .ok (none, s)
  else do
    let s ← computeColsWidthCache s
    drawBody s

/-- The physical lines joined by newlines: the string `draw` returns. -/
def joinLines (ls : List Str) : Str := joinSep ['\n'] ls

/-- `draw` viewed as the returned string (or nothing for an empty
table), together with the updated instance state. -/
def drawString (s : UniState) : Except UniErr (Option Str × UniState) :=
  (draw s).map (fun p => (p.1.map joinLines, p.2))

instance {ε α : Type _} [DecidableEq ε] [DecidableEq α] : DecidableEq (Except ε α) :=
  fun x y =>
    match x, y with
    | .ok a, .ok b => if h : a = b then .isTrue (by rw [h]) else .isFalse (by simp [h])
    | .error a, .error b => if h : a = b then .isTrue (by rw [h]) else .isFalse (by simp [h])
    | .ok _, .error _ => .isFalse (by simp)
    | .error _, .ok _ => .isFalse (by simp)

/-- A well-formed CSI escape sequence in structured form: parameter bytes,
intermediate bytes and a final byte.  `toStr` is the concrete character
sequence. -/
structure CsiSeq where
  params : Str
  interm : Str
  fin : Char
deriving DecidableEq, Repr

/-- The character sequence of a structured CSI escape. -/
def CsiSeq.toStr (e : CsiSeq) : Str :=
  escChar :: '[' :: (e.params ++ e.interm ++ [e.fin])

/-- Well-formedness of a structured CSI escape: each byte belongs to its
class from the escape-sequence grammar. -/
def CsiSeq.wf (e : CsiSeq) : Prop :=
  (∀ c ∈ e.params, isParamByte c) ∧ (∀ c ∈ e.interm, isIntermByte c) ∧
    isFinalByte e.fin

instance (e : CsiSeq) : Decidable e.wf := by
  unfold CsiSeq.wf
  infer_instance

/-- The reset sequence in structured form. -/
def resetCsi : CsiSeq := ⟨['0'], [], 'm'⟩

/-- A string containing no escape marker at all. -/
def noEsc (s : Str) : Bool := s.all (· ≠ escChar)

/-- Mutating operations on a table, for stating the shape invariant:
setting the header, adding a row, or calling a per-column setter
(represented by the column-alignment setter). -/
inductive TOp where
  | hdr : List Str → TOp
  | row : List Str → TOp
  | calign : List Char → TOp

/-- The length of an operation's array argument. -/
def opLen : TOp → Nat
  | .hdr a => a.length
  | .row a => a.length
  | .calign a => a.length

/-- Running one mutating operation. -/
def runOp (s : UniState) : TOp → Except UniErr UniState
  | .hdr a => headerOp s a
  | .row a => addRow s a
  | .calign a => setColsAlign s a

/-- Running a sequence of mutating operations. -/
def runOps : UniState → List TOp → Except UniErr UniState
  | s, [] => .ok s
  | s, op :: ops => do runOps (← runOp s op) ops

/-- The shape invariant at arity `n`: the established row size is `n`, all
stored rows have `n` cells, and the header is absent or has `n` cells. -/
def goodShape (s : UniState) (n : Nat) : Prop :=
  s.rowSize = some n ∧ (∀ r ∈ s.rows, r.length = n) ∧
    (s.header = [] ∨ s.header.length = n)

instance (s : UniState) (n : Nat) : Decidable (goodShape s n) := by
  unfold goodShape
  infer_instance

/-- Scenario A (C1): default table, the 4-glyph shorthand style, header
`A`/`B` and one data row `1`/`2`. -/
def scenarioAState : Except UniErr UniState := do
  let s ← setTableLines initState [['-'], ['|'], ['+'], ['-']]
  let s ← headerOp s ["A".data, "B".data]
  addRow s ["1".data, "2".data]

/-- A first insertion of an empty header followed by a two-cell row. -/
def c2Ops : List TOp := [.hdr [], .row ["a".data, "b".data]]

/-- C3 counterexample table: one column whose only cell is empty, border
on, `max_width` 4 — below the claimed minimum `1 + 4 = 5`. -/
def c3SmallState : UniState :=
  setMaxWidth ((addRow initState ["".data]).toOption.getD initState) 4

/-- Scenario C table: two columns with border and vertical lines,
`max_width` 5 — minimum viable width `2 + 7 = 9`. -/
def c3TwoColState : UniState :=
  setMaxWidth (scenarioAState.toOption.getD initState) 5

/-- C5 failing input, plain variant. -/
def c5Plain : Str := "aa bb cc dd".data

/-- C5 failing input: the same text with the middle word styled by an
escape/reset pair. -/
def c5Styled : Str :=
  "aa ".data ++ [escChar] ++ "[1mbb".data ++ [escChar] ++ "[0m cc dd".data

/-- C6 counterexample table: one column of wide (CJK) characters squeezed
to width 3 by `max_width` 7. -/
def c6WideState : UniState :=
  setMaxWidth ((addRow initState ["你你 你你".data]).toOption.getD initState) 7

/-- C7 counterexample: a one-column table with cell `a`, drawn once (which
caches the width vector `[1]`), then extended with the wider cell `bbb`. -/
def c7AfterState : Except UniErr UniState := do
  let s ← addRow initState ["a".data]
  let r ← draw s
  addRow r.2 ["bbb".data]

/-- C8 counterexample text: the characters of an escape sequence split as
`\x1b[3` followed by `1m`. -/
def c8Head : Str := [escChar, '[', '3']

/-- The second half of the C8 counterexample text. -/
def c8Tail : Str := "1m".data

/-- The escape `\x1b[1;31m` (bold red) in structured form. -/
def c4Esc : CsiSeq := ⟨['1', ';', '3', '1'], [], 'm'⟩

/-- The escape `\x1b[34m` (blue) in structured form. -/
def c10Esc : CsiSeq := ⟨['3', '4'], [], 'm'⟩

/-- The escape `\x1b[31m` (red) in structured form. -/
def c8InsEsc : CsiSeq := ⟨['3', '1'], [], 'm'⟩

/-- The table state after adding the single-cell row `a` and drawing once:
the drawn state carries the cached width vector `[1]`. -/
def c7CachedState : UniState :=
  (((addRow initState ["a".data]).bind draw).toOption.getD (none, initState)).2

/-- Interleaving of plain segments with escape sequences: the variant text
with the escapes inserted. -/
def weave : List (Str × CsiSeq) → Str → Str
  | [], t => t
  | (seg, e) :: ps, t => seg ++ e.toStr ++ weave ps t

/-- The same interleaving with the escapes removed: the original text. -/
def plainParts : List (Str × CsiSeq) → Str → Str
  | [], t => t
  | (seg, _) :: ps, t => seg ++ plainParts ps t

/-- The column count of the natural-width vector. -/
def ncolsOf (s : UniState) : Nat := (naturalWidths s).length

/-- The decoration overhead computed by `_compute_cols_width`. -/
def decoWidthOf (s : UniState) : Int :=
  3 * ((ncolsOf s : Int) - 1) + (if s.hasBorder then 4 else 0)

/-- The minimum viable width stated by the width error. -/
def minViable (s : UniState) : Int := (ncolsOf s : Int) + decoWidthOf s

/-- The total natural content width. -/
def contentWidthOf (s : UniState) : Int := ((naturalWidths s).sum : Int)


/-- A character of display width one (in particular not a control
character, not the escape marker, not a tab and not wide). -/
def CharNarrow (c : Char) : Bool := charWcwidth c = 1

/-- A physical line of narrow characters. -/
def NarrowStr (l : Str) : Bool := l.all CharNarrow

/-- Cell content of narrow characters, with embedded newlines allowed. -/
def CellNarrow (cell : Str) : Bool := cell.all (fun c => c = '\n' || CharNarrow c)

/-- A border glyph that is a single narrow character. -/
def GlyphNarrow (g : Str) : Prop := ∃ c, g = [c] ∧ CharNarrow c = true

/-- All 15 glyph slots are single narrow characters. -/
def TCharsNarrow (t : TableChars) : Prop :=
  GlyphNarrow t.ew ∧ GlyphNarrow t.ns ∧ GlyphNarrow t.se ∧ GlyphNarrow t.sw ∧
  GlyphNarrow t.ne ∧ GlyphNarrow t.nw ∧ GlyphNarrow t.nse ∧ GlyphNarrow t.nsw ∧
  GlyphNarrow t.sew ∧ GlyphNarrow t.new ∧ GlyphNarrow t.nsew ∧ GlyphNarrow t.hew ∧
  GlyphNarrow t.hnse ∧ GlyphNarrow t.hnsw ∧ GlyphNarrow t.hnsew

/-- The width vector `draw` effectively uses: the cached `self._width`
when it exists, and `_compute_cols_width`'s computation otherwise. -/
def effWidths (s : UniState) : Except UniErr (List Nat) :=
  match s.widthOpt with
  | some ws => .ok ws
  | none => computeColsWidthFn s

/-- A two-column table of narrow cells in the default light style. -/
def c6NarrowState : UniState :=
  { initState with
      header := ["A".data, "B".data]
      rows := [["1".data, "2".data]]
      rowSize := some 2 }

/-- The five physical lines that drawing the narrow two-column table
yields. -/
def c6WitLines : List Str :=
  ["┌───┬───┐".data, "│ A │ B │".data, "├───┼───┤".data,
   "│ 1 │ 2 │".data, "└───┴───┘".data]

/-- The instance state after drawing the narrow two-column table: width
vector cached and default alignments filled in. -/
def c6OutState : UniState :=
  { c6NarrowState with
      widthOpt := some [1, 1]
      headerAlignOpt := some ['c', 'c']
      alignOpt := some ['l', 'l']
      valignOpt := some ['t', 't'] }

/-! ### Lemmas about the escape scanners and the shape invariant -/

theorem interm_not_param {c : Char} (h : isIntermByte c = true) : isParamByte c = false := by
  simp [isIntermByte, isParamByte] at *
  omega

theorem final_not_param {c : Char} (h : isFinalByte c = true) : isParamByte c = false := by
  simp [isFinalByte, isParamByte] at *
  omega

theorem final_not_interm {c : Char} (h : isFinalByte c = true) : isIntermByte c = false := by
  simp [isFinalByte, isIntermByte] at *
  omega

theorem escChar_toNat : escChar.toNat = 27 := by decide

theorem param_ne_esc {c : Char} (h : isParamByte c = true) : c ≠ escChar := by
  intro he
  subst he
  simp [isParamByte, escChar_toNat] at h

theorem interm_ne_esc {c : Char} (h : isIntermByte c = true) : c ≠ escChar := by
  intro he
  subst he
  simp [isIntermByte, escChar_toNat] at h

theorem final_ne_esc {c : Char} (h : isFinalByte c = true) : c ≠ escChar := by
  intro he
  subst he
  simp [isFinalByte, escChar_toNat] at h

theorem noEsc_cons {c : Char} {s : Str} (h : noEsc (c :: s) = true) :
    c ≠ escChar ∧ noEsc s = true := by
  simp [noEsc] at h ⊢
  exact h

theorem stripRun_append_noEsc {a : Str} (r : Str) (h : noEsc a = true) :
    stripRun .norm (a ++ r) = a ++ stripRun .norm r := by
  induction a with
  | nil => rfl
  | cons c as ih =>
      obtain ⟨hc, ha⟩ := noEsc_cons h
      simp [stripRun, hc, ih ha]

theorem stripRun_csi_interm {i : Str} (hi : ∀ c ∈ i, isIntermByte c = true)
    {f : Char} (hf : isFinalByte f = true) (ps im r : Str) :
    stripRun (.csi ps im) (i ++ [f] ++ r) = stripRun .norm r := by
  induction i generalizing im with
  | nil =>
      simp [stripRun, final_not_param hf, final_not_interm hf, hf]
  | cons c cs ih =>
      have hc : isIntermByte c = true := hi c (List.mem_cons_self c cs)
      have hcs : ∀ x ∈ cs, isIntermByte x = true := fun x hx => hi x (List.mem_cons_of_mem c hx)
      simp [stripRun, interm_not_param hc, hc]
      simpa [List.append_assoc] using ih hcs (im ++ [c])

theorem stripRun_csi_params {p : Str} (hp : ∀ c ∈ p, isParamByte c = true)
    {i : Str} (hi : ∀ c ∈ i, isIntermByte c = true)
    {f : Char} (hf : isFinalByte f = true) (ps r : Str) :
    stripRun (.csi ps []) (p ++ i ++ [f] ++ r) = stripRun .norm r := by
  induction p generalizing ps with
  | nil => simpa using stripRun_csi_interm hi hf ps [] r
  | cons c cs ih =>
      have hc : isParamByte c = true := hp c (List.mem_cons_self c cs)
      have hcs : ∀ x ∈ cs, isParamByte x = true := fun x hx => hp x (List.mem_cons_of_mem c hx)
      simp [stripRun, hc]
      simpa [List.append_assoc] using ih hcs (ps ++ [c])

theorem bracket_not_single : isSingleEscByte '[' = false := by decide

theorem stripRun_escape {e : CsiSeq} (he : e.wf) (r : Str) :
    stripRun .norm (e.toStr ++ r) = stripRun .norm r := by
  obtain ⟨hp, hi, hf⟩ := he
  show stripRun .norm ((escChar :: '[' :: (e.params ++ e.interm ++ [e.fin])) ++ r) = _
  simp [stripRun, bracket_not_single]
  simpa [List.append_assoc] using stripRun_csi_params hp hi hf [] r

theorem stripAnsi_append_noEsc {a : Str} (r : Str) (h : noEsc a = true) :
    stripAnsi (a ++ r) = a ++ stripAnsi r := stripRun_append_noEsc r h

theorem stripAnsi_escape {e : CsiSeq} (he : e.wf) (r : Str) :
    stripAnsi (e.toStr ++ r) = stripAnsi r := stripRun_escape he r

theorem stripAnsi_noEsc {a : Str} (h : noEsc a = true) : stripAnsi a = a := by
  have := stripAnsi_append_noEsc [] h
  simpa [stripAnsi, stripRun] using this

theorem containsReset_noEsc {b : Str} (h : noEsc b = true) : containsReset b = false := by
  induction b with
  | nil => rfl
  | cons c cs ih =>
      obtain ⟨hc, hcs⟩ := noEsc_cons h
      simp [containsReset, hc, ih hcs]

theorem findRun_append_noEsc {a : Str} (r : Str) (h : noEsc a = true) :
    findRun .norm (a ++ r) = findRun .norm r := by
  induction a with
  | nil => rfl
  | cons c as ih =>
      obtain ⟨hc, ha⟩ := noEsc_cons h
      simp [findRun, hc, ih ha]

theorem findRun_noEsc {a : Str} (h : noEsc a = true) : findRun .norm a = [] := by
  have := findRun_append_noEsc [] h
  simpa [findRun] using this

theorem findRun_csi_interm {i : Str} (hi : ∀ c ∈ i, isIntermByte c = true)
    {f : Char} (hf : isFinalByte f = true) (ps im r : Str) :
    findRun (.csi ps im) (i ++ [f] ++ r) =
      (if (ps ++ (im ++ i) ++ [f]).take 2 = ['0', 'm'] || containsReset r then []
       else [escChar :: '[' :: (ps ++ (im ++ i) ++ [f])]) ++ findRun .norm r := by
  induction i generalizing im with
  | nil =>
      simp [findRun, final_not_param hf, final_not_interm hf, hf]
      split <;> simp
  | cons c cs ih =>
      have hc : isIntermByte c = true := hi c (List.mem_cons_self c cs)
      have hcs : ∀ x ∈ cs, isIntermByte x = true := fun x hx => hi x (List.mem_cons_of_mem c hx)
      simp [findRun, interm_not_param hc, hc]
      simpa [List.append_assoc] using ih hcs (im ++ [c])

theorem findRun_csi_params {p : Str} (hp : ∀ c ∈ p, isParamByte c = true)
    {i : Str} (hi : ∀ c ∈ i, isIntermByte c = true)
    {f : Char} (hf : isFinalByte f = true) (ps r : Str) :
    findRun (.csi ps []) (p ++ i ++ [f] ++ r) =
      (if ((ps ++ p) ++ i ++ [f]).take 2 = ['0', 'm'] || containsReset r then []
       else [escChar :: '[' :: ((ps ++ p) ++ i ++ [f])]) ++ findRun .norm r := by
  induction p generalizing ps with
  | nil => simpa using findRun_csi_interm hi hf ps [] r
  | cons c cs ih =>
      have hc : isParamByte c = true := hp c (List.mem_cons_self c cs)
      have hcs : ∀ x ∈ cs, isParamByte x = true := fun x hx => hp x (List.mem_cons_of_mem c hx)
      simp [findRun, hc]
      simpa [List.append_assoc] using ih hcs (ps ++ [c])

theorem findRun_escape {e : CsiSeq} (he : e.wf) (r : Str) :
    findRun .norm (e.toStr ++ r) =
      (if (e.params ++ e.interm ++ [e.fin]).take 2 = ['0', 'm'] || containsReset r then []
       else [e.toStr]) ++ findRun .norm r := by
  obtain ⟨hp, hi, hf⟩ := he
  show findRun .norm ((escChar :: '[' :: (e.params ++ e.interm ++ [e.fin])) ++ r) = _
  simp [findRun]
  simpa [CsiSeq.toStr, List.append_assoc] using findRun_csi_params hp hi hf [] r

theorem take2_ne_reset {e : CsiSeq} (he : e.wf) (hne : e ≠ resetCsi) :
    ((e.params ++ e.interm ++ [e.fin]).take 2 = ['0', 'm']) → False := by
  obtain ⟨hp, hi, hf⟩ := he
  intro heq
  match hps : e.params, his : e.interm with
  | [], [] =>
      rw [hps, his] at heq
      simp at heq
  | [], d :: is =>
      rw [hps, his] at heq
      have hd : isIntermByte d = true := by
        rw [his] at hi
        exact hi d (List.mem_cons_self d is)
      simp at heq
      obtain ⟨h0, _⟩ := heq
      rw [h0] at hd
      simp [isIntermByte] at hd
  | c :: [], [] =>
      rw [hps, his] at heq
      simp at heq
      obtain ⟨h0, hm⟩ := heq
      exact hne (by
        cases e
        simp_all [resetCsi])
  | c :: [], d :: is =>
      rw [hps, his] at heq
      have hd : isIntermByte d = true := by
        rw [his] at hi
        exact hi d (List.mem_cons_self d is)
      simp at heq
      obtain ⟨_, hm⟩ := heq
      rw [hm] at hd
      simp [isIntermByte] at hd
  | c :: c2 :: cs, _ =>
      rw [hps] at heq
      have hc2 : isParamByte c2 = true := by
        rw [hps] at hp
        exact hp c2 (List.mem_cons_of_mem c (List.mem_cons_self c2 cs))
      simp at heq
      obtain ⟨_, hm⟩ := heq
      rw [hm] at hc2
      simp [isParamByte] at hc2

theorem unterminatedOf_single {a b : Str} {e : CsiSeq} (he : e.wf)
    (hne : e ≠ resetCsi) (ha : noEsc a = true) (hb : noEsc b = true) :
    unterminatedOf (a ++ (e.toStr ++ b)) = e.toStr := by
  unfold unterminatedOf
  rw [findRun_append_noEsc _ ha, findRun_escape he]
  rw [containsReset_noEsc hb, findRun_noEsc hb]
  have h2 := take2_ne_reset he hne
  simp only [Bool.or_false]
  rw [if_neg (by
    intro hx
    exact h2 (by simpa using hx))]
  simp

theorem resetSeq_eq : resetSeq = resetCsi.toStr := by decide

theorem resetCsi_wf : resetCsi.wf := by decide

theorem eToStr_ne_nil (e : CsiSeq) : e.toStr ≠ [] := by
  simp [CsiSeq.toStr]

theorem procLine_opens {a b : Str} {e : CsiSeq} (he : e.wf) (hne : e ≠ resetCsi)
    (ha : noEsc a = true) (hb : noEsc b = true) :
    procLine [] (a ++ (e.toStr ++ b)) = (a ++ (e.toStr ++ b) ++ resetSeq, e.toStr) := by
  unfold procLine
  simp [unterminatedOf_single he hne ha hb, eToStr_ne_nil, List.isEmpty_eq_true]

theorem procLine_reopen {l2 : Str} {e : CsiSeq} (he : e.wf) (hne : e ≠ resetCsi)
    (hl2 : noEsc l2 = true) :
    procLine e.toStr l2 = (e.toStr ++ l2 ++ resetSeq, e.toStr) := by
  unfold procLine
  have := unterminatedOf_single (a := []) (b := l2) he hne rfl hl2
  simp at this
  simp [this, eToStr_ne_nil, List.isEmpty_eq_true]

theorem strip_resetStr : stripAnsi resetCsi.toStr = [] := by decide

theorem strip_opened_line {a b : Str} {e : CsiSeq} (he : e.wf)
    (ha : noEsc a = true) (hb : noEsc b = true) :
    stripAnsi (a ++ (e.toStr ++ b) ++ resetSeq) = a ++ b := by
  rw [resetSeq_eq, List.append_assoc, List.append_assoc]
  rw [stripAnsi_append_noEsc _ ha, stripAnsi_escape he]
  rw [stripAnsi_append_noEsc _ hb, strip_resetStr]
  simp

theorem strip_reopened_line {l2 : Str} {e : CsiSeq} (he : e.wf)
    (hl2 : noEsc l2 = true) :
    stripAnsi (e.toStr ++ l2 ++ resetSeq) = l2 := by
  rw [resetSeq_eq, List.append_assoc]
  rw [stripAnsi_escape he, stripAnsi_append_noEsc _ hl2, strip_resetStr]
  simp

/-- C4 (amended as stated): for a single cell whose first physical line
contains a non-reset escape `e` with no reset later on that line (the line
is `a ++ e ++ b` with `a`, `b` escape-free) followed by an escape-free
second physical line, the continuity repair appends an explicit reset to
the end of line 1 and prepends the same escape to the start of line 2
(closing it again with a reset), and stripping escapes from each repaired
line yields the original visible fragments. -/
theorem ansi_continuity_single_cell {a b l2 : Str} {e : CsiSeq}
    (he : e.wf) (hne : e ≠ resetCsi) (ha : noEsc a = true) (hb : noEsc b = true)
    (hl2 : noEsc l2 = true) :
    processLines [[a ++ (e.toStr ++ b), l2]] =
      [[a ++ (e.toStr ++ b) ++ resetSeq, e.toStr ++ l2 ++ resetSeq]] ∧
    stripAnsi (a ++ (e.toStr ++ b) ++ resetSeq) = a ++ b ∧
    stripAnsi (e.toStr ++ l2 ++ resetSeq) = l2 := by
  refine ⟨?_, strip_opened_line he ha hb, strip_reopened_line he hl2⟩
  simp [processLines, processCells, procCellLines,
    procLine_opens he hne ha hb, procLine_reopen he hne hl2]

/-- C10: the pending-unterminated-escape buffer is not reset between the
cells of one row: when the (only) line of cell `k` ends with a non-reset
escape not followed by a reset, that escape is prepended to the first line
of cell `k+1`, so styling carried out of one column is reapplied at the
start of the next column's cell. -/
theorem ansi_continuity_across_cells {b l2 : Str} {a : Str} {e : CsiSeq}
    (he : e.wf) (hne : e ≠ resetCsi) (ha : noEsc a = true) (hb : noEsc b = true)
    (hl2 : noEsc l2 = true) :
    processLines [[a ++ (e.toStr ++ b)], [l2]] =
      [[a ++ (e.toStr ++ b) ++ resetSeq], [e.toStr ++ l2 ++ resetSeq]] := by
  simp [processLines, processCells, procCellLines,
    procLine_opens he hne ha hb, procLine_reopen he hne hl2]

/-- C8 (amended): the display-width function is blind to inserted
well-formed escape sequences, provided the insertion points fall between
escape-free segments of the original text (an insertion placed inside an
existing escape sequence of `T` breaks this — see the counterexample). -/
theorem width_blind_to_inserted_escapes (ps : List (Str × CsiSeq)) (t : Str)
    (hp : ∀ p ∈ ps, noEsc p.1 = true ∧ p.2.wf) :
    slcLen (weave ps t) = slcLen (plainParts ps t) := by
  suffices h : stripAnsi (weave ps t) = stripAnsi (plainParts ps t) by
    simp [slcLen, h]
  induction ps with
  | nil => rfl
  | cons p rest ih =>
      obtain ⟨seg, e⟩ := p
      obtain ⟨hseg, hwf⟩ := hp (seg, e) (List.mem_cons_self _ _)
      have hrest := fun q hq => hp q (List.mem_cons_of_mem _ hq)
      show stripAnsi (seg ++ e.toStr ++ weave rest t) = stripAnsi (seg ++ plainParts rest t)
      rw [List.append_assoc, stripAnsi_append_noEsc _ hseg, stripAnsi_escape hwf,
        stripAnsi_append_noEsc _ hseg, ih hrest]

theorem checkRowSize_established {s : UniState} {n : Nat} (hn : 0 < n)
    (hrs : s.rowSize = some n) (len : Nat) :
    checkRowSize s len = if len = n then .ok s else .error (.arraySize n len) := by
  unfold checkRowSize
  rw [hrs]
  by_cases hl : len = n
  · subst hl
    simp [Nat.pos_iff_ne_zero.mp hn]
  · simp [Nat.pos_iff_ne_zero.mp hn, hl, Ne.symm hl]

theorem strCellsGo_length {s : UniState} {a : List Str} :
    ∀ {i : Nat} {cs : List Str}, strCellsGo s i a = .ok cs → cs.length = a.length := by
  induction a with
  | nil =>
      intro i cs h
      simp [strCellsGo] at h
      simp [← h]
  | cons x xs ih =>
      intro i cs h
      simp [strCellsGo] at h
      match hf : strFmt s i x with
      | .error e => rw [hf] at h; simp [Bind.bind, Except.bind] at h
      | .ok c =>
          rw [hf] at h
          simp [Bind.bind, Except.bind] at h
          match hr : strCellsGo s (i + 1) xs with
          | .error e => rw [hr] at h; simp at h
          | .ok cs2 =>
              rw [hr] at h
              simp at h
              rw [← h]
              simp [ih hr]

/-- C2 (amended): once the table's arity is established by a first
*non-empty* insertion — `goodShape s n` with `0 < n` — every header,
row or per-column-setter call whose argument length differs from `n`
raises `ArraySizeError` immediately at that call, and every successful
call preserves the shape invariant.  (A length-0 first insertion does not
establish the arity: the source's falsy test treats it as unset — see the
counterexample.) -/
theorem shape_invariant_established (s : UniState) (n : Nat) (hn : 0 < n)
    (hg : goodShape s n) (op : TOp) :
    (opLen op ≠ n → runOp s op = .error (.arraySize n (opLen op))) ∧
    (∀ s', runOp s op = .ok s' → goodShape s' n) := by
  obtain ⟨hrs, hrows, hhd⟩ := hg
  cases op with
  | hdr a =>
      constructor
      · intro hne
        have hne' : a.length ≠ n := by simpa [opLen] using hne
        simp [runOp, headerOp, checkRowSize_established hn hrs, hne',
          Bind.bind, Except.bind, opLen]
      · intro s' h
        simp [runOp, headerOp, checkRowSize_established hn hrs,
          Bind.bind, Except.bind] at h
        by_cases hl : a.length = n
        · rw [if_pos hl] at h
          simp at h
          subst h
          exact ⟨hrs, hrows, Or.inr hl⟩
        · rw [if_neg hl] at h
          simp at h
  | calign a =>
      constructor
      · intro hne
        have hne' : a.length ≠ n := by simpa [opLen] using hne
        simp [runOp, setColsAlign, checkRowSize_established hn hrs, hne',
          Bind.bind, Except.bind, opLen]
      · intro s' h
        simp [runOp, setColsAlign, checkRowSize_established hn hrs,
          Bind.bind, Except.bind] at h
        by_cases hl : a.length = n
        · rw [if_pos hl] at h
          simp at h
          subst h
          exact ⟨hrs, hrows, hhd⟩
        · rw [if_neg hl] at h
          simp at h
  | row a =>
      constructor
      · intro hne
        have hne' : a.length ≠ n := by simpa [opLen] using hne
        simp [runOp, addRow, checkRowSize_established hn hrs, hne',
          Bind.bind, Except.bind, opLen]
      · intro s' h
        simp [runOp, addRow, checkRowSize_established hn hrs,
          Bind.bind, Except.bind] at h
        by_cases hl : a.length = n
        · rw [if_pos hl] at h
          simp at h
          -- h now involves the dtype fill and strCells
          set s1 := if s.dtypeOpt = none
            then { s with dtypeOpt := some (List.replicate (s.rowSize.getD 0) 'a') }
            else s with hs1
          match hc : strCells s1 a with
          | .error e => rw [hc] at h; simp at h
          | .ok cells =>
              rw [hc] at h
              simp at h
              subst h
              have hcl : cells.length = a.length := strCellsGo_length hc
              have hs1rows : s1.rows = s.rows := by
                rw [hs1]; split <;> rfl
              have hs1rs : s1.rowSize = some n := by
                rw [hs1]; split <;> simp [hrs]
              have hs1hd : s1.header = s.header := by
                rw [hs1]; split <;> rfl
              refine ⟨by simp [hs1rs], ?_, by simp [hs1hd]; exact hhd⟩
              intro r hr
              simp [hs1rows] at hr
              rcases hr with hr | hr
              · exact hrows r hr
              · rw [hr, hcl, hl]
        · rw [if_neg hl] at h
          simp at h


theorem foldl_min_le_zero (l : List Int) (init : Int)
    (h : init ≤ 0 ∨ ∃ w ∈ l, w ≤ 0) : l.foldl min init ≤ 0 := by
  induction l generalizing init with
  | nil =>
      rcases h with h | ⟨w, hw, _⟩
      · simpa using h
      · simp at hw
  | cons x xs ih =>
      apply ih
      rcases h with h | ⟨w, hw, hwle⟩
      · exact Or.inl (le_trans (min_le_left init x) h)
      · rcases List.mem_cons.mp hw with hw | hw
        · exact Or.inl (le_trans (min_le_right init x) (hw ▸ hwle))
        · exact Or.inr ⟨w, hw, hwle⟩

/-- C9 (amended): a negative padding or precision is rejected at the
setter call with `ValueError` and the state is unchanged (the setters
return a new state only on success); a fixed-column-width array containing
a non-positive width is likewise rejected.  Padding 0, however, is
accepted and stored — the guard is `amount < 0` — contrary to the claim
(see the counterexample). -/
theorem setter_validation (s : UniState) (a : Int) (arr : List Int) :
    (a < 0 → setPadding s a = .error .valueError) ∧
    (0 ≤ a → setPadding s a = .ok { s with pad := a.toNat }) ∧
    (a < 0 → setPrecision s a = .error .valueError) ∧
    (0 ≤ a → setPrecision s a = .ok { s with precision := a.toNat }) ∧
    ((∃ w ∈ arr, w ≤ 0) → (setColsWidth s arr).isOk = false) := by
  refine ⟨?_, ?_, ?_, ?_, ?_⟩
  · intro h
    simp [setPadding, h]
  · intro h
    simp [setPadding, not_lt.mpr h]
  · intro h
    simp [setPrecision, h]
  · intro h
    simp [setPrecision, not_lt.mpr h]
  · rintro ⟨w, hw, hwle⟩
    unfold setColsWidth
    match hc : checkRowSize s arr.length with
    | .error e => simp [Bind.bind, Except.bind, hc, Except.isOk, Except.toBool]
    | .ok s1 =>
        simp only [Bind.bind, Except.bind, hc]
        match arr, hw with
        | x :: xs, hw =>
            have : xs.foldl min x ≤ 0 := by
              apply foldl_min_le_zero
              rcases List.mem_cons.mp hw with h | h
              · exact Or.inl (h ▸ hwle)
              · exact Or.inr ⟨w, h, hwle⟩
            simp [this, Except.isOk, Except.toBool]

theorem wrapParts_err {w : Nat} {cs : List Str} {e : UniErr}
    (h : wrapParts w cs = .error e) : e = .valueError := by
  induction cs with
  | nil => simp [wrapParts] at h
  | cons c rest ih =>
      unfold wrapParts at h
      by_cases hb : isBlankStr c = true
      · simp [hb, Bind.bind, Except.bind] at h
        match hr : wrapParts w rest with
        | .error e2 => rw [hr] at h; simp at h; subst h; exact ih hr
        | .ok _ => rw [hr] at h; simp at h
      · simp [hb, Bind.bind, Except.bind] at h
        match ht : textwrapper c w with
        | .error _ => rw [ht] at h; simp at h; exact h.symm
        | .ok ls =>
            rw [ht] at h
            simp at h
            match hr : wrapParts w rest with
            | .error e2 => rw [hr] at h; simp at h; subst h; exact ih hr
            | .ok _ => rw [hr] at h; simp at h

theorem wrapAll_err {line : List Str} {ws : List Nat} {e : UniErr}
    (h : wrapAll line ws = .error e) : e = .valueError := by
  induction line generalizing ws with
  | nil => simp [wrapAll] at h
  | cons c rest ih =>
      match ws with
      | [] => simp [wrapAll] at h
      | w :: wt =>
          unfold wrapAll at h
          simp [Bind.bind, Except.bind] at h
          match hc : wrapCell c w with
          | .error e2 =>
              rw [hc] at h
              simp at h
              subst h
              exact wrapParts_err hc
          | .ok _ =>
              rw [hc] at h
              simp at h
              match hr : wrapAll rest wt with
              | .error e2 => rw [hr] at h; simp at h; subst h; exact ih hr
              | .ok _ => rw [hr] at h; simp at h

theorem valignCell_err {m : Nat} {v : Char} {cell : List Str} {e : UniErr}
    (h : valignCell m v cell = .error e) : e = .typeError := by
  unfold valignCell at h
  by_cases hv : v = 'm'
  · simp [hv] at h
    exact h.symm
  · by_cases hb : v = 'b' <;> simp [hv, hb] at h

theorem valignAll_err {m : Nat} {ih0 : Bool} {cells : List (List Str)}
    {vs : List Char} {e : UniErr}
    (h : valignAll m ih0 cells vs = .error e) : e = .typeError := by
  induction cells generalizing vs with
  | nil =>
      have hnil : valignAll m ih0 [] vs = .ok [] := by cases vs <;> rfl
      rw [hnil] at h
      simp at h
  | cons c rest ih =>
      match vs with
      | [] =>
          rw [show valignAll m ih0 (c :: rest) [] = .ok (c :: rest) from rfl] at h
          simp at h
      | v :: vt =>
          unfold valignAll at h
          simp [Bind.bind, Except.bind] at h
          match hc : valignCell m (if ih0 then 't' else v) c with
          | .error e2 =>
              rw [hc] at h
              simp at h
              subst h
              exact valignCell_err hc
          | .ok _ =>
              rw [hc] at h
              simp at h
              match hr : valignAll m ih0 rest vt with
              | .error e2 => rw [hr] at h; simp at h; subst h; exact ih hr
              | .ok _ => rw [hr] at h; simp at h

theorem splitit_err {s : UniState} {ws : List Nat} {line : List Str}
    {ih0 : Bool} {e : UniErr}
    (h : splitit s ws line ih0 = .error e) : e = .valueError ∨ e = .typeError := by
  unfold splitit at h
  simp [Bind.bind, Except.bind] at h
  match hw : wrapAll line ws with
  | .error e2 =>
      rw [hw] at h
      simp at h
      subst h
      exact Or.inl (wrapAll_err hw)
  | .ok wrapped =>
      rw [hw] at h
      simp at h
      by_cases hemp : wrapped = []
      · simp [hemp] at h
        exact Or.inr h.symm
      · simp [hemp] at h
        match hv : valignAll ((wrapped.map List.length).foldl max 0) ih0 wrapped
            (s.valignOpt.getD []) with
        | .error e2 => rw [hv] at h; simp at h; subst h; exact Or.inr (valignAll_err hv)
        | .ok _ => rw [hv] at h; simp at h

theorem drawLine_err {s : UniState} {ws : List Nat} {line : List Str}
    {ih0 : Bool} {e : UniErr}
    (h : drawLine s ws line ih0 = .error e) : e = .valueError ∨ e = .typeError := by
  unfold drawLine at h
  simp [Bind.bind, Except.bind] at h
  match hs : splitit s ws line ih0 with
  | .error e2 => rw [hs] at h; simp at h; subst h; exact splitit_err hs
  | .ok _ => rw [hs] at h; simp at h

theorem bodyLines_err {s : UniState} {ws : List Nat} {rows : List (List Str)}
    {e : UniErr}
    (h : bodyLines s ws rows = .error e) : e = .valueError ∨ e = .typeError := by
  induction rows with
  | nil => simp [bodyLines] at h
  | cons r rest ih =>
      match rest with
      | [] => exact drawLine_err h
      | r2 :: rest2 =>
          unfold bodyLines at h
          simp [Bind.bind, Except.bind] at h
          match h1 : drawLine s ws r false with
          | .error e2 => rw [h1] at h; simp at h; subst h; exact drawLine_err h1
          | .ok _ =>
              rw [h1] at h
              simp at h
              match h2 : bodyLines s ws (r2 :: rest2) with
              | .error e2 => rw [h2] at h; simp at h; subst h; exact ih h2
              | .ok _ => rw [h2] at h; simp at h

theorem checkAlign_err {s : UniState} {e : UniErr}
    (h : checkAlign s = .error e) : e = .typeError := by
  unfold checkAlign at h
  rcases hha : s.headerAlignOpt with _ | ha <;>
    rcases hrs : s.rowSize with _ | n <;>
      rcases hal : s.alignOpt with _ | al <;>
        rcases hva : s.valignOpt with _ | va <;>
          rw [hha, hrs, hal, hva] at h <;>
            simp [Bind.bind, Except.bind] at h <;>
              first
              | exact h.symm
              | exact h
              | rfl

theorem computeOk_of_min_le (s : UniState)
    (hge : minViable s ≤ (s.maxWidth : Int)) :
    ∃ ws, computeColsWidthFn s = .ok ws := by
  simp only [minViable, ncolsOf, decoWidthOf] at hge
  unfold computeColsWidthFn
  simp only []
  by_cases hc : (decide (s.maxWidth ≠ 0) &&
      decide ((((naturalWidths s).sum : Int) : Int) +
        (3 * (((naturalWidths s).length : Int) - 1) +
          (if s.hasBorder then (4 : Int) else 0)) > (s.maxWidth : Int))) = true
  · rw [if_pos hc, if_neg (not_lt.mpr hge)]
    exact ⟨_, rfl⟩
  · rw [if_neg hc]
    exact ⟨_, rfl⟩

theorem computeErr_of_lt (s : UniState) (hmw : s.maxWidth ≠ 0)
    (hlt : (s.maxWidth : Int) < minViable s)
    (hcontent : (s.maxWidth : Int) < contentWidthOf s + decoWidthOf s) :
    computeColsWidthFn s = .error (.widthTooSmall s.maxWidth (minViable s)) := by
  simp only [minViable, ncolsOf, decoWidthOf] at hlt
  simp only [contentWidthOf, decoWidthOf, ncolsOf] at hcontent
  unfold computeColsWidthFn
  simp only []
  rw [if_pos, if_pos hlt]
  · simp [minViable, ncolsOf, decoWidthOf]
  · simp only [Bool.and_eq_true, decide_eq_true_eq]
    exact ⟨hmw, hcontent⟩

theorem drawBody_err {s : UniState} {e : UniErr} (h : drawBody s = .error e) :
    e = .valueError ∨ e = .typeError := by
  unfold drawBody at h
  simp only [Bind.bind, Except.bind] at h
  match hca : checkAlign s with
  | .error e2 => rw [hca] at h; simp at h; subst h; exact Or.inr (checkAlign_err hca)
  | .ok s2 =>
      rw [hca] at h
      simp only [] at h
      by_cases hh : s2.header.isEmpty = true
      · simp only [hh, Bool.not_true, Bool.false_eq_true, if_false] at h
        simp only [pure, Except.pure] at h
        match hb : bodyLines s2 (s2.widthOpt.getD []) s2.rows with
        | .error e2 => rw [hb] at h; simp at h; subst h; exact bodyLines_err hb
        | .ok _ => rw [hb] at h; simp at h
      · simp only [hh, Bool.not_false, if_true] at h
        match hd : drawLine s2 (s2.widthOpt.getD []) s2.header true with
        | .error e2 => rw [hd] at h; simp at h; subst h; exact drawLine_err hd
        | .ok _ =>
            rw [hd] at h
            simp only [pure, Except.pure] at h
            match hb : bodyLines s2 (s2.widthOpt.getD []) s2.rows with
            | .error e2 => rw [hb] at h; simp at h; subst h; exact bodyLines_err hb
            | .ok _ => rw [hb] at h; simp at h

/-- C3 (amended): for a non-empty table with a bounded `max_width` and no
pre-set width vector, `draw` never raises the width error when
`max_width ≥ columns + overhead`; and it raises exactly
`WidthTooSmall(max_width, columns + overhead)` — stating the minimum
viable width — when `max_width < columns + overhead` *and* the natural
content width plus overhead also exceeds `max_width` (which holds whenever
every column's natural width is at least 1; without that extra condition
the claim fails — see the counterexample). -/
theorem width_error_iff_budget (s : UniState)
    (hcache : s.widthOpt = none)
    (hne : (s.header.isEmpty && s.rows.isEmpty) = false)
    (hmw : s.maxWidth ≠ 0) :
    (minViable s ≤ (s.maxWidth : Int) →
      ∀ mw mn, draw s ≠ .error (.widthTooSmall mw mn)) ∧
    ((s.maxWidth : Int) < minViable s →
      (s.maxWidth : Int) < contentWidthOf s + decoWidthOf s →
      draw s = .error (.widthTooSmall s.maxWidth (minViable s))) := by
  constructor
  · intro hge mw mn hdraw
    obtain ⟨ws, hok⟩ := computeOk_of_min_le s hge
    have hcc : computeColsWidthCache s = .ok { s with widthOpt := some ws } := by
      unfold computeColsWidthCache
      simp [hcache, hok, Bind.bind, Except.bind]
    unfold draw at hdraw
    simp only [hne, Bool.false_eq_true, if_false, hcc, Bind.bind, Except.bind] at hdraw
    match hdb : drawBody { s with widthOpt := some ws } with
    | .error e2 =>
        rw [hdb] at hdraw
        simp at hdraw
        rcases drawBody_err hdb with h2 | h2 <;> rw [h2] at hdraw <;> simp at hdraw
    | .ok _ => rw [hdb] at hdraw; simp at hdraw
  · intro hlt hcontent
    have herr := computeErr_of_lt s hmw hlt hcontent
    have hcc : computeColsWidthCache s = .error (.widthTooSmall s.maxWidth (minViable s)) := by
      unfold computeColsWidthCache
      simp [hcache, herr, Bind.bind, Except.bind]
    unfold draw
    simp [hne, hcc, Bind.bind, Except.bind]

theorem computeCache_frame {s s1 : UniState} (h : computeColsWidthCache s = .ok s1) :
    s1.rows = s.rows ∧ s1.header = s.header ∧ s1.rowSize = s.rowSize ∧
    s1.deco = s.deco ∧ s1.pad = s.pad ∧ s1.precision = s.precision ∧
    s1.maxWidth = s.maxWidth ∧ s1.style = s.style ∧ s1.tchars = s.tchars ∧
    s1.dtypeOpt = s.dtypeOpt ∧ s1.headerAlignOpt = s.headerAlignOpt ∧
    s1.alignOpt = s.alignOpt ∧ s1.valignOpt = s.valignOpt ∧
    (∀ ws, s.widthOpt = some ws → s1 = s) := by
  unfold computeColsWidthCache at h
  by_cases hw : s.widthOpt.isSome = true
  · rw [if_pos hw] at h
    simp at h
    subst h
    refine ⟨rfl, rfl, rfl, rfl, rfl, rfl, rfl, rfl, rfl, rfl, rfl, rfl, rfl, ?_⟩
    intro ws hws
    rfl
  · rw [if_neg hw] at h
    simp only [Bind.bind, Except.bind] at h
    match hc : computeColsWidthFn s with
    | .error e => rw [hc] at h; simp at h
    | .ok ws2 =>
        rw [hc] at h
        simp at h
        subst h
        refine ⟨rfl, rfl, rfl, rfl, rfl, rfl, rfl, rfl, rfl, rfl, rfl, rfl, rfl, ?_⟩
        intro ws hws
        rw [hws] at hw
        simp at hw

theorem checkAlign_frame {s s2 : UniState} (h : checkAlign s = .ok s2) :
    s2.rows = s.rows ∧ s2.header = s.header ∧ s2.rowSize = s.rowSize ∧
    s2.deco = s.deco ∧ s2.pad = s.pad ∧ s2.precision = s.precision ∧
    s2.maxWidth = s.maxWidth ∧ s2.style = s.style ∧ s2.tchars = s.tchars ∧
    s2.dtypeOpt = s.dtypeOpt ∧ s2.widthOpt = s.widthOpt ∧
    s2.hasBorder = s.hasBorder ∧ s2.hasHeader = s.hasHeader := by
  unfold checkAlign at h
  rcases hha : s.headerAlignOpt with _ | ha <;>
    rcases hrs : s.rowSize with _ | n <;>
      rcases hal : s.alignOpt with _ | al <;>
        rcases hva : s.valignOpt with _ | va <;>
          rw [hha, hrs, hal, hva] at h <;>
            simp [Bind.bind, Except.bind] at h <;>
              subst h <;> simp [hrs]

theorem checkRowSize_frame {s s1 : UniState} {len : Nat}
    (h : checkRowSize s len = .ok s1) :
    s1.widthOpt = s.widthOpt ∧ s1.rows = s.rows ∧ s1.header = s.header ∧
    s1.dtypeOpt = s.dtypeOpt := by
  unfold checkRowSize at h
  split at h
  · simp at h
    subst h
    exact ⟨rfl, rfl, rfl, rfl⟩
  · split at h
    · simp at h
    · simp at h
      subst h
      exact ⟨rfl, rfl, rfl, rfl⟩

theorem addRow_preserves_cache {s s2 : UniState} {row : List Str}
    (h : addRow s row = .ok s2) :
    s2.widthOpt = s.widthOpt ∧ s2.header = s.header ∧
    s2.rows.length = s.rows.length + 1 := by
  unfold addRow at h
  simp only [Bind.bind, Except.bind] at h
  match hc : checkRowSize s row.length with
  | .error e => rw [hc] at h; simp at h
  | .ok s1 =>
      rw [hc] at h
      obtain ⟨hw1, hr1, hh1, hd1⟩ := checkRowSize_frame hc
      simp only [] at h
      set s1b := if s1.dtypeOpt = none
        then { s1 with dtypeOpt := some (List.replicate (s1.rowSize.getD 0) 'a') }
        else s1 with hs1b
      have hw2 : s1b.widthOpt = s1.widthOpt := by rw [hs1b]; split <;> rfl
      have hr2 : s1b.rows = s1.rows := by rw [hs1b]; split <;> rfl
      have hh2 : s1b.header = s1.header := by rw [hs1b]; split <;> rfl
      match hsc : strCells s1b row with
      | .error e => rw [hsc] at h; simp at h
      | .ok cells =>
          rw [hsc] at h
          simp at h
          subst h
          refine ⟨by simp [hw2, hw1], by simp [hh2, hh1], by simp [hr2, hr1]⟩

theorem drawBody_state {s : UniState} {r : Option (List Str)} {s2 : UniState}
    (h : drawBody s = .ok (r, s2)) : checkAlign s = .ok s2 := by
  unfold drawBody at h
  simp only [Bind.bind, Except.bind, pure, Except.pure] at h
  repeat' split at h
  all_goals simp_all

/-- C7 (amended): rendering mutates no part of the table's state except
the cached width vector and the lazily-filled alignment defaults — rows,
header, row size, decorations, padding, precision, max width, style,
glyphs and dtypes are unchanged, and a present width cache is kept as is.
The cache is *not* invalidated when content changes: `add_row` leaves
`_width` untouched, so a second `draw` reuses the stale vector (see the
counterexample). -/
theorem draw_frame_and_cache_reuse (s : UniState) :
    (∀ r s', draw s = .ok (r, s') →
      s'.rows = s.rows ∧ s'.header = s.header ∧ s'.rowSize = s.rowSize ∧
      s'.deco = s.deco ∧ s'.pad = s.pad ∧ s'.precision = s.precision ∧
      s'.maxWidth = s.maxWidth ∧ s'.style = s.style ∧ s'.tchars = s.tchars ∧
      s'.dtypeOpt = s.dtypeOpt ∧
      (∀ ws, s.widthOpt = some ws → s'.widthOpt = some ws)) ∧
    (∀ row s2, addRow s row = .ok s2 → s2.widthOpt = s.widthOpt) := by
  constructor
  · intro r s' h
    unfold draw at h
    by_cases hne : (s.header.isEmpty && s.rows.isEmpty) = true
    · rw [if_pos hne] at h
      simp at h
      obtain ⟨hr, hs⟩ := h
      subst hs
      simp
    · rw [if_neg hne] at h
      simp only [Bind.bind, Except.bind] at h
      match hcc : computeColsWidthCache s with
      | .error e => rw [hcc] at h; simp at h
      | .ok s1 =>
          rw [hcc] at h
          obtain ⟨f1, f2, f3, f4, f5, f6, f7, f8, f9, f10, _, _, _, fws⟩ :=
            computeCache_frame hcc
          have hst : checkAlign s1 = .ok s' := drawBody_state h
          obtain ⟨g1, g2, g3, g4, g5, g6, g7, g8, g9, g10, gw, _, _⟩ :=
            checkAlign_frame hst
          refine ⟨by rw [g1, f1], by rw [g2, f2], by rw [g3, f3], by rw [g4, f4],
            by rw [g5, f5], by rw [g6, f6], by rw [g7, f7], by rw [g8, f8],
            by rw [g9, f9], by rw [g10, f10], ?_⟩
          intro ws hws
          rw [gw, fws ws hws, hws]
  · intro row s2 h
    exact (addRow_preserves_cache h).1

/-- C1: for the table with header `A`,`B`, one data row `1`,`2`, the
4-glyph border shorthand `-`,`|`,`+`,`-`, padding 1, all four decoration
flags enabled and default alignments, `draw()` returns exactly the
expected 5-line string with no trailing newline. -/
theorem draw_scenarioA_exact :
    (scenarioAState.bind drawString).map Prod.fst =
      .ok (some "+---+---+\n| A | B |\n+---+---+\n| 1 | 2 |\n+---+---+".data) := by
  decide

/-- C2 counterexample: a first inserted header of length 0 does not
establish the arity — the subsequent `add_row` with two cells succeeds
with no `ArraySizeError` (the claim requires it to raise), re-establishing
the row size as 2. -/
theorem shape_error_empty_first_insertion_cx :
    (runOps initState c2Ops).map
        (fun s => (s.rowSize, s.rows.map List.length, s.header.length)) =
      .ok (some 2, [2], 0) := by
  decide

/-- C2 witness: on the scenario-A table (arity 2), adding a one-cell row
raises `ArraySizeError` immediately. -/
theorem shape_invariant_established_witness :
    runOp (scenarioAState.toOption.getD initState) (.row ["x".data]) =
      .error (.arraySize 2 1) :=
  (shape_invariant_established (scenarioAState.toOption.getD initState) 2
      (by decide) (by decide) (.row ["x".data])).1 (by decide)

/-- C3 counterexample: a non-empty one-column bordered table whose only
cell is empty, with `max_width = 4` below the claimed minimum `1 + 4 = 5`,
renders without any error — `draw` returns 3 lines — because the natural
content width (0) plus overhead does not exceed the budget. -/
theorem width_too_small_not_raised_cx :
    c3SmallState.maxWidth = 4 ∧
    (naturalWidths c3SmallState).length = 1 ∧ c3SmallState.hasBorder = true ∧
    ((draw c3SmallState).map (fun p => p.1.map List.length)) = .ok (some 3) := by
  decide

/-- C3 witness: Scenario C — two columns with border and vertical lines and
`max_width = 5` raise the width error stating the minimum viable width 9. -/
theorem width_error_iff_budget_witness :
    draw c3TwoColState = .error (.widthTooSmall 5 9) := by
  have h := (width_error_iff_budget c3TwoColState (by decide) (by decide)
      (by decide)).2 (by decide) (by decide)
  rw [show minViable c3TwoColState = 9 by decide] at h
  exact h

/-- C4 witness: the red escape opened before `Red` on line 1 is closed at
the end of line 1 and reopened before `text` on line 2. -/
theorem ansi_continuity_single_cell_witness :
    c4Esc.wf ∧ c4Esc ≠ resetCsi ∧
    (processLines [[[] ++ (c4Esc.toStr ++ "Red".data), "text".data]] =
        [[[] ++ (c4Esc.toStr ++ "Red".data) ++ resetSeq,
          c4Esc.toStr ++ "text".data ++ resetSeq]] ∧
      stripAnsi ([] ++ (c4Esc.toStr ++ "Red".data) ++ resetSeq) = [] ++ "Red".data ∧
      stripAnsi (c4Esc.toStr ++ "text".data ++ resetSeq) = "text".data) :=
  ⟨by decide, by decide,
    ansi_continuity_single_cell (by decide) (by decide) (by decide) (by decide)
      (by decide)⟩

/-- C5 (code bug): `_splitit` wraps with the plain module-level
`textwrapper`, which counts escape characters toward line width, so the
escape-stripped wrapped lines of the styled text differ from the wrapped
lines of the plain text; the `ColorAwareWrapper` built for exactly this
purpose (`self._cwrap`) is never called, and *it* preserves the plain
wrapping. -/
theorem splitit_wrap_not_escape_aware :
    (splitit initState [10] [c5Plain] false) = .ok [["aa bb cc".data, "dd".data]] ∧
    (splitit initState [10] [c5Styled] false).map (List.map (List.map stripAnsi)) =
      .ok [["aa".data, "bb".data, "cc dd".data]] ∧
    stripAnsi (colorAwareWrap c5Styled 10) = colorAwareWrap c5Plain 10 := by
  decide

/-- C6 counterexample: a one-column table of wide (CJK) characters
squeezed to column width 3 renders border lines of display width 7 but
row lines of display width 8 — the physical lines of `draw()`'s output do
not all have the same display width. -/
theorem row_width_uniformity_cx :
    (draw c6WideState).map (fun p => p.1.map (fun ls => ls.map slcLen)) =
      .ok (some [7, 8, 8, 7]) := by
  decide

/-- C7 counterexample: after `draw()` caches the width vector `[1]`,
`add_row` with the wider cell `bbb` leaves the cache in place, and the
second `draw()` keeps using `[1]` even though a fresh computation from the
new content yields `[3]`. -/
theorem width_cache_not_invalidated_cx :
    (c7AfterState.map (fun s => (s.widthOpt, computeColsWidthFn s))) =
      .ok (some [1], .ok [3]) ∧
    (c7AfterState.bind draw).map (fun p => p.2.widthOpt) = .ok (some [1]) := by
  decide

/-- C7 witness: the state drawn once has the cache `[1]`; applying the
frame theorem to the `add_row` that follows shows the cache survives. -/
theorem draw_frame_and_cache_reuse_witness :
    c7CachedState.widthOpt = some [1] ∧
    (c7AfterState.toOption.getD initState).widthOpt = some [1] := by
  refine ⟨by decide, ?_⟩
  have h := (draw_frame_and_cache_reuse c7CachedState).2 ["bbb".data]
    (c7AfterState.toOption.getD initState) (by decide)
  rw [h]
  decide

/-- C8 counterexample: inserting the reset sequence (which matches the
escape-sequence grammar) *inside* an existing escape sequence of `T`
changes the measured width: `width("\x1b[31m") = 0` but the variant with
the reset inserted after `\x1b[3` measures −1. -/
theorem width_insertion_inside_escape_cx :
    resetCsi.wf ∧
    slcLen (c8Head ++ c8Tail) = 0 ∧
    slcLen (c8Head ++ resetCsi.toStr ++ c8Tail) = -1 := by
  decide

/-- C8 witness: inserting a red escape between `Red ` and `text` does not
change the measured width. -/
theorem width_blind_to_inserted_escapes_witness :
    slcLen (weave [("Red ".data, c8InsEsc)] "text".data) =
      slcLen (plainParts [("Red ".data, c8InsEsc)] "text".data) :=
  width_blind_to_inserted_escapes [("Red ".data, c8InsEsc)] "text".data (by decide)

/-- C9 counterexample: `set_padding(0)` is accepted — the stored padding
becomes 0 and no error is raised, although the claim says a non-positive
padding must be rejected. -/
theorem padding_zero_accepted_cx :
    setPadding initState 0 = .ok { initState with pad := 0 } := by
  decide

/-- C9 witness: negative padding and precision are rejected with
`ValueError`, and a width array containing 0 is rejected. -/
theorem setter_validation_witness :
    setPadding initState (-1) = .error .valueError ∧
    setPrecision initState (-1) = .error .valueError ∧
    (setColsWidth initState [0, 2]).isOk = false :=
  ⟨(setter_validation initState (-1) [0, 2]).1 (by decide),
   (setter_validation initState (-1) [0, 2]).2.2.1 (by decide),
   (setter_validation initState (-1) [0, 2]).2.2.2.2 ⟨0, by decide, by decide⟩⟩

/-- C10 witness: the blue escape left unterminated at the end of cell 1's
line is prepended to the first line of cell 2. -/
theorem ansi_continuity_across_cells_witness :
    c10Esc.wf ∧ c10Esc ≠ resetCsi ∧
    processLines [["x".data ++ (c10Esc.toStr ++ "y".data)], ["z".data]] =
      [["x".data ++ (c10Esc.toStr ++ "y".data) ++ resetSeq],
       [c10Esc.toStr ++ "z".data ++ resetSeq]] :=
  ⟨by decide, by decide,
   ansi_continuity_across_cells (by decide) (by decide) (by decide) (by decide)
     (by decide)⟩


theorem charNarrow_ne_esc {c : Char} (h : CharNarrow c = true) : c ≠ escChar := by
  intro he
  subst he
  simp [CharNarrow, charWcwidth, escChar_toNat] at h

theorem narrow_noEsc {l : Str} (h : NarrowStr l = true) : noEsc l = true := by
  simp [NarrowStr] at h
  simp [noEsc]
  intro c hc
  exact charNarrow_ne_esc (h c hc)

theorem narrow_wcswidth {l : Str} (h : NarrowStr l = true) :
    wcswidthInt l = l.length := by
  induction l with
  | nil => rfl
  | cons c r ih =>
      simp [NarrowStr] at h
      obtain ⟨hc, hr⟩ := h
      have hw : charWcwidth c = 1 := by simpa [CharNarrow] using hc
      have hrr := ih (by simpa [NarrowStr] using hr)
      simp [wcswidthInt, hw, hrr]
      omega

theorem narrow_slcLen {l : Str} (h : NarrowStr l = true) :
    slcLen l = l.length := by
  rw [slcLen, stripAnsi_noEsc (narrow_noEsc h)]
  exact narrow_wcswidth h

theorem narrow_append {a b : Str} (ha : NarrowStr a = true) (hb : NarrowStr b = true) :
    NarrowStr (a ++ b) = true := by
  simp [NarrowStr] at *
  exact ⟨ha, hb⟩

theorem narrow_replicate_space (k : Nat) : NarrowStr (List.replicate k ' ') = true := by
  simp [NarrowStr]
  right
  decide

theorem splitNl_narrow {cell : Str} (h : CellNarrow cell = true) :
    ∀ p ∈ splitNl cell, NarrowStr p = true := by
  induction cell with
  | nil =>
      intro p hp
      simp [splitNl] at hp
      simp [hp, NarrowStr]
  | cons c r ih =>
      simp [CellNarrow] at h
      obtain ⟨hc, hr⟩ := h
      have hrn : CellNarrow r = true := by simpa [CellNarrow] using hr
      intro p hp
      by_cases hnl : c = '\n'
      · simp [splitNl, hnl] at hp
        rcases hp with hp | hp
        · simp [hp, NarrowStr]
        · exact ih hrn p hp
      · rcases hc with hc | hc
        · exact absurd hc hnl
        · simp only [splitNl, if_neg hnl] at hp
          match hs : splitNl r with
          | p1 :: ps =>
              rw [hs] at hp
              simp at hp
              rcases hp with hp | hp
              · subst hp
                have h1 : NarrowStr p1 = true := ih hrn p1 (by rw [hs]; exact List.mem_cons_self _ _)
                simp [NarrowStr] at h1 ⊢
                exact ⟨hc, h1⟩
              · exact ih hrn p (by rw [hs]; exact List.mem_cons_of_mem _ hp)
          | [] =>
              rw [hs] at hp
              simp at hp
              simp [hp, NarrowStr, hc]

theorem narrow_reverse {l : Str} (h : NarrowStr l = true) :
    NarrowStr l.reverse = true := by
  simp [NarrowStr] at h ⊢
  intro c hc
  exact h c hc

theorem chunksAux_narrow {s acc : Str} {b : Bool}
    (hs : NarrowStr s = true) (hacc : NarrowStr acc = true) :
    ∀ ch ∈ chunksAux s acc b, NarrowStr ch = true := by
  induction s generalizing acc b with
  | nil =>
      intro ch hch
      simp [chunksAux] at hch
      obtain ⟨_, hch⟩ := hch
      subst hch
      exact narrow_reverse hacc
  | cons c r ih =>
      simp [NarrowStr] at hs
      obtain ⟨hc, hr⟩ := hs
      have hrn : NarrowStr r = true := by simpa [NarrowStr] using hr
      have hcn : CharNarrow (if isPySpace c then ' ' else c) = true := by
        split
        · decide
        · exact hc
      intro ch hch
      simp only [chunksAux] at hch
      by_cases hae : acc.isEmpty = true
      · rw [if_pos hae] at hch
        exact ih hrn (by simp [NarrowStr, hcn]) ch hch
      · rw [if_neg hae] at hch
        by_cases heq : isPySpace c = b
        · rw [if_pos heq] at hch
          refine ih hrn ?_ ch hch
          simp [NarrowStr] at hacc ⊢
          exact ⟨hcn, hacc⟩
        · rw [if_neg heq] at hch
          rcases List.mem_cons.mp hch with hch | hch
          · subst hch
            exact narrow_reverse hacc
          · exact ih hrn (by simp [NarrowStr, hcn]) ch hch

theorem mkChunks_narrow {s : Str} (hs : NarrowStr s = true) :
    ∀ ch ∈ mkChunks s, NarrowStr ch = true := by
  exact chunksAux_narrow hs (by simp [NarrowStr])

theorem narrow_flatten {ls : List Str} (h : ∀ l ∈ ls, NarrowStr l = true) :
    NarrowStr ls.flatten = true := by
  induction ls with
  | nil => simp [NarrowStr]
  | cons l rest ih =>
      simp only [List.flatten_cons]
      exact narrow_append (h l (List.mem_cons_self _ _))
        (ih (fun x hx => h x (List.mem_cons_of_mem _ hx)))

theorem flatten_length (ls : List Str) :
    ls.flatten.length = (ls.map List.length).sum := by
  induction ls with
  | nil => rfl
  | cons l rest ih => simp [List.flatten_cons, ih]

theorem takeFit_spec (w : Nat) (chunks : List Str) :
    ∀ (len : Nat) (acc : List Str),
      (∀ ch ∈ acc, NarrowStr ch = true) → (∀ ch ∈ chunks, NarrowStr ch = true) →
      len = (acc.map List.length).sum →
      (∀ ch ∈ (takeFit w chunks len acc).1, NarrowStr ch = true) ∧
      (∀ ch ∈ (takeFit w chunks len acc).2.2, NarrowStr ch = true) ∧
      (takeFit w chunks len acc).2.1 = ((takeFit w chunks len acc).1.map List.length).sum ∧
      (len ≤ w → (takeFit w chunks len acc).2.1 ≤ w) := by
  induction chunks with
  | nil =>
      intro len acc hacc hch hlen
      simp only [takeFit]
      exact ⟨hacc, by simp, hlen, fun h => h⟩
  | cons ch rest ih =>
      intro len acc hacc hch hlen
      by_cases hfit : len + ch.length ≤ w
      · have hch' : ∀ x ∈ rest, NarrowStr x = true :=
          fun x hx => hch x (List.mem_cons_of_mem _ hx)
        have hacc' : ∀ x ∈ ch :: acc, NarrowStr x = true := by
          intro x hx
          rcases List.mem_cons.mp hx with hx | hx
          · exact hx ▸ hch ch (List.mem_cons_self _ _)
          · exact hacc x hx
        have hlen' : len + ch.length = ((ch :: acc).map List.length).sum := by
          simp [hlen]
          omega
        have hres := ih (len + ch.length) (ch :: acc) hacc' hch' hlen'
        simp only [takeFit, if_pos hfit]
        exact ⟨hres.1, hres.2.1, hres.2.2.1, fun _ => hres.2.2.2 hfit⟩
      · simp only [takeFit, if_neg hfit]
        refine ⟨hacc, hch, hlen, fun h => h⟩

theorem handleLong_spec (w : Nat) (hw : 1 ≤ w) (tf : List Str × Nat × List Str)
    (h1 : ∀ x ∈ tf.1, NarrowStr x = true) (h2 : ∀ x ∈ tf.2.2, NarrowStr x = true)
    (h3 : tf.2.1 = (tf.1.map List.length).sum) (h4 : tf.2.1 ≤ w) :
    (∀ x ∈ (handleLong w tf).1, NarrowStr x = true) ∧
    (∀ x ∈ (handleLong w tf).2, NarrowStr x = true) ∧
    ((handleLong w tf).1.map List.length).sum ≤ w := by
  unfold handleLong
  match hr : tf.2.2 with
  | [] => exact ⟨h1, by simp, by rw [← h3]; exact h4⟩
  | chx :: rest2 =>
      have hchx : NarrowStr chx = true := h2 chx (by rw [hr]; exact List.mem_cons_self _ _)
      have hrest2 : ∀ x ∈ rest2, NarrowStr x = true :=
        fun x hx => h2 x (by rw [hr]; exact List.mem_cons_of_mem _ hx)
      by_cases hlong : w < chx.length
      · simp only [if_pos hlong]
        have hsl : (if w < 1 then 1 else w - tf.2.1) = w - tf.2.1 := by
          rw [if_neg (by omega)]
        refine ⟨?_, ?_, ?_⟩
        · intro x hx
          rcases List.mem_cons.mp hx with hx | hx
          · subst hx
            simp [NarrowStr] at hchx ⊢
            intro c hc
            exact hchx c (List.mem_of_mem_take hc)
          · exact h1 x hx
        · intro x hx
          rcases List.mem_cons.mp hx with hx | hx
          · subst hx
            simp [NarrowStr] at hchx ⊢
            intro c hc
            exact hchx c (List.mem_of_mem_drop hc)
          · exact hrest2 x hx
        · simp only [List.map_cons, List.sum_cons, hsl, List.length_take, ← h3]
          omega
      · simp only [if_neg hlong]
        refine ⟨h1, ?_, by rw [← h3]; exact h4⟩
        intro x hx
        rcases List.mem_cons.mp hx with hx | hx
        · exact hx ▸ hchx
        · exact hrest2 x hx

theorem dropTrailWS_spec (lineRev : List Str)
    (h1 : ∀ x ∈ lineRev, NarrowStr x = true) :
    (∀ x ∈ dropTrailWS lineRev, NarrowStr x = true) ∧
    ((dropTrailWS lineRev).map List.length).sum ≤ (lineRev.map List.length).sum := by
  match lineRev, h1 with
  | [], _ => exact ⟨by simp [dropTrailWS], by simp [dropTrailWS]⟩
  | t :: more, h1 =>
      by_cases hws : isWSChunk t = true
      · simp only [dropTrailWS, if_pos hws]
        exact ⟨fun x hx => h1 x (List.mem_cons_of_mem _ hx), by simp⟩
      · simp only [dropTrailWS, if_neg hws]
        exact ⟨h1, le_refl _⟩

theorem wrapLoop_lines (w : Nat) (hw : 1 ≤ w) :
    ∀ (fuel : Nat) (chunks : List Str) (b : Bool),
      (∀ ch ∈ chunks, NarrowStr ch = true) →
      ∀ l ∈ wrapLoop w fuel chunks b, NarrowStr l = true ∧ l.length ≤ w := by
  intro fuel
  induction fuel with
  | zero => intro chunks b hch l hl; simp [wrapLoop] at hl
  | succ f ih =>
      intro chunks b hch l hl
      match chunks, hch with
      | [], _ => simp [wrapLoop] at hl
      | ch0 :: rest0, hch =>
          rw [wrapLoop] at hl
          simp only [] at hl
          have hch1 : ∀ x ∈ (if b && isWSChunk ch0 then rest0 else ch0 :: rest0),
              NarrowStr x = true := by
            split
            · exact fun x hx => hch x (List.mem_cons_of_mem _ hx)
            · exact hch
          match hc2 : (if b && isWSChunk ch0 then rest0 else ch0 :: rest0) with
          | [] => rw [hc2] at hl; simp at hl
          | cx :: cxs =>
              rw [hc2] at hch1 hl
              simp only [] at hl
              obtain ⟨ht1, ht2, ht3, ht4⟩ :=
                takeFit_spec w (cx :: cxs) 0 [] (by simp) hch1 (by simp)
              obtain ⟨hl1, hl2, hl3⟩ :=
                handleLong_spec w hw (takeFit w (cx :: cxs) 0 []) ht1 ht2 ht3
                  (ht4 (by omega))
              obtain ⟨hd1, hd2⟩ := dropTrailWS_spec _ hl1
              by_cases hemp :
                  (dropTrailWS (handleLong w (takeFit w (cx :: cxs) 0 [])).1).isEmpty = true
              · rw [if_pos hemp] at hl
                exact ih _ b hl2 l hl
              · rw [if_neg hemp] at hl
                rcases List.mem_cons.mp hl with hl | hl
                · subst hl
                  constructor
                  · apply narrow_flatten
                    intro x hx
                    exact hd1 x (List.mem_reverse.mp hx)
                  · rw [flatten_length]
                    have hms : ((dropTrailWS (handleLong w (takeFit w (cx :: cxs) 0 [])).1).reverse.map
                        List.length).sum =
                        ((dropTrailWS (handleLong w (takeFit w (cx :: cxs) 0 [])).1).map
                        List.length).sum := by
                      rw [List.map_reverse, List.sum_reverse]
                    rw [hms]
                    exact le_trans hd2 hl3
                · exact ih _ true hl2 l hl

theorem textwrapper_lines {txt : Str} {w : Nat} (hw : 1 ≤ w)
    (ht : NarrowStr txt = true) {ls : List Str}
    (h : textwrapper txt w = .ok ls) :
    ∀ l ∈ ls, NarrowStr l = true ∧ l.length ≤ w := by
  unfold textwrapper at h
  rw [if_neg (by omega)] at h
  simp at h
  subst h
  exact wrapLoop_lines w hw _ _ false (mkChunks_narrow ht)

theorem wrapParts_lines {w : Nat} (hw : 1 ≤ w) {parts : List Str}
    (hp : ∀ p ∈ parts, NarrowStr p = true) {ls : List Str}
    (h : wrapParts w parts = .ok ls) :
    ∀ l ∈ ls, NarrowStr l = true ∧ l.length ≤ w := by
  induction parts generalizing ls with
  | nil =>
      simp [wrapParts] at h
      subst h
      simp
  | cons c cs ih =>
      unfold wrapParts at h
      by_cases hb : isBlankStr c = true
      · simp only [hb, if_pos, Bind.bind, Except.bind] at h
        simp at h
        match hr : wrapParts w cs with
        | .error e => rw [hr] at h; simp at h
        | .ok rest =>
            rw [hr] at h
            simp at h
            subst h
            intro l hl
            rcases List.mem_cons.mp hl with h1 | h1
            · subst h1
              exact ⟨by simp [NarrowStr], by simp⟩
            · exact ih (fun p hp2 => hp p (List.mem_cons_of_mem _ hp2)) hr l h1
      · simp only [hb, Bool.false_eq_true, if_false, Bind.bind, Except.bind] at h
        match hw2 : textwrapper c w with
        | .error e => rw [hw2] at h; simp at h
        | .ok first =>
            rw [hw2] at h
            simp at h
            match hr : wrapParts w cs with
            | .error e => rw [hr] at h; simp at h
            | .ok rest =>
                rw [hr] at h
                simp at h
                subst h
                intro l hl
                rcases List.mem_append.mp hl with h1 | h1
                · exact textwrapper_lines hw (hp c (List.mem_cons_self _ _)) hw2 l h1
                · exact ih (fun p hp2 => hp p (List.mem_cons_of_mem _ hp2)) hr l h1

theorem wrapCell_lines {cell : Str} {w : Nat} (hw : 1 ≤ w)
    (hc : CellNarrow cell = true) {ls : List Str}
    (h : wrapCell cell w = .ok ls) :
    ∀ l ∈ ls, NarrowStr l = true ∧ l.length ≤ w :=
  wrapParts_lines hw (splitNl_narrow hc) h

theorem joinSep_len (sep : Str) (ls : List Str) :
    (joinSep sep ls).length =
      (ls.map List.length).sum + (ls.length - 1) * sep.length := by
  match ls with
  | [] => simp [joinSep]
  | [x] => simp [joinSep]
  | x :: y :: rest =>
      have ih := joinSep_len sep (y :: rest)
      simp only [joinSep, List.length_append, ih, List.map_cons, List.sum_cons,
        List.length_cons, Nat.succ_sub_one]
      ring

theorem joinSep_narrow {sep : Str} {ls : List Str} (hsep : NarrowStr sep = true)
    (h : ∀ l ∈ ls, NarrowStr l = true) : NarrowStr (joinSep sep ls) = true := by
  match ls with
  | [] => simp [joinSep, NarrowStr]
  | [x] => simpa [joinSep] using h x (List.mem_cons_self _ _)
  | x :: y :: rest =>
      have ih := joinSep_narrow hsep (fun l hl => h l (List.mem_cons_of_mem _ hl))
      exact narrow_append (narrow_append (h x (List.mem_cons_self _ _)) hsep) ih

theorem repGlyph_single (c : Char) (k : Nat) :
    repGlyph [c] k = List.replicate k c := by
  induction k with
  | zero => rfl
  | succ m ih =>
      unfold repGlyph at ih ⊢
      simp [List.replicate_succ, List.flatten_cons, ih]

theorem repGlyph_single_len (c : Char) (k : Nat) : (repGlyph [c] k).length = k := by
  rw [repGlyph_single]
  simp

theorem repGlyph_single_narrow {c : Char} (hc : CharNarrow c = true) (k : Nat) :
    NarrowStr (repGlyph [c] k) = true := by
  rw [repGlyph_single]
  simp [NarrowStr]
  exact Or.inr hc

theorem getD_mem_or_nil (cell : List Str) (i : Nat) :
    cell.getD i [] ∈ cell ∨ cell.getD i [] = [] := by
  by_cases h : i < cell.length
  · left
    rw [List.getD_eq_getElem _ _ h]
    exact List.getElem_mem h
  · right
    rw [List.getD_eq_default _ _ (by omega)]

theorem foldl_max_le_init (ls : List Nat) (a : Nat) : a ≤ ls.foldl max a := by
  induction ls generalizing a with
  | nil => simp
  | cons x xs ih => exact le_trans (le_max_left a x) (ih (max a x))

theorem mem_le_foldl_max {ls : List Nat} {x : Nat} (h : x ∈ ls) (a : Nat) :
    x ≤ ls.foldl max a := by
  induction ls generalizing a with
  | nil => simp at h
  | cons y ys ih =>
      simp only [List.foldl_cons]
      rcases List.mem_cons.mp h with h | h
      · subst h
        exact le_trans (le_max_right a x) (foldl_max_le_init ys (max a x))
      · exact ih h (max a y)

theorem pyTrunc_nonneg {a : Int} (h : 0 ≤ a) (b : Int) :
    pyTrunc a b = (a.toNat / b.toNat : Nat) := by
  simp [pyTrunc, h]

theorem alignOne_spec {cl : Str} {w : Nat} (a : Char)
    (hn : NarrowStr cl = true) (hl : cl.length ≤ w) :
    NarrowStr (alignOne a w cl) = true ∧ (alignOne a w cl).length = w := by
  have hfill : (w : Int) - slcLen cl = ((w - cl.length : Nat) : Int) := by
    rw [narrow_slcLen hn]
    omega
  unfold alignOne
  rw [narrow_slcLen hn]
  by_cases hr : a = 'r'
  · rw [if_pos hr]
    constructor
    · exact narrow_append (narrow_replicate_space _) hn
    · simp
      omega
  · rw [if_neg hr]
    by_cases hc : a = 'c'
    · rw [if_pos hc]
      have h2 : (0 : Int) ≤ (w : Int) - cl.length := by omega
      constructor
      · exact narrow_append (narrow_append (narrow_replicate_space _) hn)
          (narrow_replicate_space _)
      · simp only [List.length_append, List.length_replicate]
        rw [pyTrunc_nonneg h2, pyTrunc_nonneg (by omega)]
        simp only [Int.toNat_natCast]
        have htn : ((w : Int) - cl.length).toNat = w - cl.length := by omega
        have htn2 : ((w : Int) - cl.length + 2 * (((w : Int) - cl.length) % 2)).toNat =
            (w - cl.length) + 2 * ((w - cl.length) % 2) := by
          omega
        rw [htn, htn2]
        have h3 : (2 : Int).toNat = 2 := rfl
        rw [h3]
        omega
    · rw [if_neg hc]
      constructor
      · exact narrow_append hn (narrow_replicate_space _)
      · simp
        omega

theorem procCellLines_noEsc {cell : List Str}
    (h : ∀ l ∈ cell, noEsc l = true) :
    procCellLines [] cell = (cell, []) := by
  induction cell with
  | nil => rfl
  | cons l rest ih =>
      have hl := h l (List.mem_cons_self _ _)
      have hu : unterminatedOf l = [] := by
        unfold unterminatedOf
        rw [findRun_noEsc hl]
        rfl
      have hpl : procLine [] l = (l, []) := by
        unfold procLine
        simp [hu]
      unfold procCellLines
      simp [hpl, ih (fun x hx => h x (List.mem_cons_of_mem _ hx))]

theorem processCells_noEsc {cells : List (List Str)}
    (h : ∀ cell ∈ cells, ∀ l ∈ cell, noEsc l = true) :
    processCells [] cells = cells := by
  induction cells with
  | nil => rfl
  | cons cell rest ih =>
      unfold processCells
      simp [procCellLines_noEsc (h cell (List.mem_cons_self _ _)),
        ih (fun c hc => h c (List.mem_cons_of_mem _ hc))]

theorem wrapAll_spec {line : List Str} {ws : List Nat}
    (hlen : line.length = ws.length)
    (hn : ∀ c ∈ line, CellNarrow c = true) (hw : ∀ w ∈ ws, 1 ≤ w)
    {cells : List (List Str)} (h : wrapAll line ws = .ok cells) :
    List.Forall₂ (fun cell w => ∀ l ∈ cell, NarrowStr l = true ∧ l.length ≤ w)
      cells ws := by
  match line, ws, hlen with
  | [], [], _ =>
      simp [wrapAll] at h
      subst h
      exact List.Forall₂.nil
  | c :: cs, w :: wvs, hlen =>
      unfold wrapAll at h
      simp only [Bind.bind, Except.bind] at h
      match hwc : wrapCell c w with
      | .error e => rw [hwc] at h; simp at h
      | .ok first =>
          rw [hwc] at h
          match hr : wrapAll cs wvs with
          | .error e => rw [hr] at h; simp at h
          | .ok rest =>
              rw [hr] at h
              simp at h
              subst h
              refine List.Forall₂.cons ?_ ?_
              · exact wrapCell_lines (hw w (List.mem_cons_self _ _))
                  (hn c (List.mem_cons_self _ _)) hwc
              · exact wrapAll_spec (by simpa using hlen)
                  (fun x hx => hn x (List.mem_cons_of_mem _ hx))
                  (fun x hx => hw x (List.mem_cons_of_mem _ hx)) hr

theorem valignCell_lines {m : Nat} {v : Char} {cell cell' : List Str}
    (h : valignCell m v cell = .ok cell') :
    ∀ l ∈ cell', l ∈ cell ∨ l = [] := by
  unfold valignCell at h
  split at h
  · simp at h
  · split at h
    · simp at h
      subst h
      intro l hl
      rcases List.mem_append.mp hl with h1 | h1
      · right; exact List.eq_of_mem_replicate h1
      · left; exact h1
    · simp at h
      subst h
      intro l hl
      rcases List.mem_append.mp hl with h1 | h1
      · left; exact h1
      · right; exact List.eq_of_mem_replicate h1

theorem valignAll_lines {m : Nat} {ib : Bool} {cells cells' : List (List Str)}
    {vs : List Char} (h : valignAll m ib cells vs = .ok cells') :
    List.Forall₂ (fun c c' => ∀ l ∈ c', l ∈ c ∨ l = []) cells cells' := by
  match cells, vs with
  | cells, [] =>
      simp [valignAll] at h
      subst h
      rw [List.forall₂_same]
      intro x _ l hl
      exact Or.inl hl
  | [], v :: vs =>
      simp [valignAll] at h
      subst h
      exact List.Forall₂.nil
  | cell :: cs, v :: vs =>
      unfold valignAll at h
      simp only [Bind.bind, Except.bind] at h
      match hvc : valignCell m (if ib then 't' else v) cell with
      | .error e => rw [hvc] at h; simp at h
      | .ok c1 =>
          rw [hvc] at h
          match hr : valignAll m ib cs vs with
          | .error e => rw [hr] at h; simp at h
          | .ok rest =>
              rw [hr] at h
              simp at h
              subst h
              exact List.Forall₂.cons (valignCell_lines hvc) (valignAll_lines hr)

theorem splitit_lines {s : UniState} {ws : List Nat} {line : List Str} {ib : Bool}
    (hlen : line.length = ws.length)
    (hn : ∀ c ∈ line, CellNarrow c = true) (hw : ∀ w ∈ ws, 1 ≤ w)
    {cells : List (List Str)} (h : splitit s ws line ib = .ok cells) :
    List.Forall₂ (fun cell w => ∀ l ∈ cell, NarrowStr l = true ∧ l.length ≤ w)
      cells ws := by
  unfold splitit at h
  simp only [Bind.bind, Except.bind] at h
  match hwa : wrapAll line ws with
  | .error e => rw [hwa] at h; simp at h
  | .ok wrapped =>
      rw [hwa] at h
      by_cases hemp : wrapped = []
      · rw [hemp] at h
        simp at h
      · have hemp' : wrapped.isEmpty = false := by
          simpa [List.isEmpty_iff] using hemp
        simp only [hemp', Bool.false_eq_true, if_false] at h
        match hva : valignAll ((wrapped.map List.length).foldl max 0) ib wrapped
            (s.valignOpt.getD []) with
        | .error e => rw [hva] at h; simp at h
        | .ok padded =>
            rw [hva] at h
            simp at h
            have hP := wrapAll_spec hlen hn hw hwa
            have hQ := valignAll_lines hva
            have hPg := List.forall₂_iff_get.mp hP
            have hQg := List.forall₂_iff_get.mp hQ
            have hR : List.Forall₂
                (fun cell w => ∀ l ∈ cell, NarrowStr l = true ∧ l.length ≤ w)
                padded ws := by
              rw [List.forall₂_iff_get]
              refine ⟨by omega, ?_⟩
              intro i h1 h2 l hl
              rcases hQg.2 i (by omega) h1 l hl with hin | hnil
              · exact hPg.2 i (by omega) h2 l hin
              · subst hnil
                exact ⟨rfl, by simp⟩
            have hnoesc : ∀ cell ∈ padded, ∀ l ∈ cell, noEsc l = true := by
              intro cell hc l hl
              obtain ⟨⟨i, hi⟩, hg⟩ := List.mem_iff_get.mp hc
              have := hR.length_eq
              have hprop := (List.forall₂_iff_get.mp hR).2 i hi (by omega) l
                (by rw [hg]; exact hl)
              exact narrow_noEsc hprop.1
            have hid : processLines padded = padded := by
              unfold processLines
              exact processCells_noEsc hnoesc
            rw [hid] at h
            subst h
            exact hR

theorem narrow_single {c : Char} (hc : CharNarrow c = true) :
    NarrowStr [c] = true := by
  simp [NarrowStr, hc]

theorem cellSep_narrow {s : UniState} (hns : GlyphNarrow s.tchars.ns) :
    NarrowStr (cellSepOf s) = true := by
  obtain ⟨c0, hc0, hc0n⟩ := hns
  unfold cellSepOf
  cases hv : hasVlines s
  · simp only [hv, Bool.false_eq_true, if_false]
    exact narrow_append (narrow_append (narrow_replicate_space _) (by decide))
      (narrow_replicate_space _)
  · simp only [hv, if_true]
    rw [hc0]
    exact narrow_append (narrow_append (narrow_replicate_space _)
      (narrow_single hc0n)) (narrow_replicate_space _)

theorem cellSep_len {s : UniState} (hns : GlyphNarrow s.tchars.ns) :
    (cellSepOf s).length = 2 * s.pad + 1 := by
  obtain ⟨c0, hc0, _⟩ := hns
  unfold cellSepOf
  cases hv : hasVlines s
  · simp only [hv, Bool.false_eq_true, if_false]
    simp
    omega
  · simp only [hv, if_true]
    rw [hc0]
    simp
    omega

theorem segs_arith (w sum p m : Nat) (h1 : 1 ≤ m) :
    w + ((2 * p + 1) + (sum + (m - 1) * (2 * p + 1))) =
      (w + sum) + m * (2 * p + 1) := by
  obtain ⟨n, rfl⟩ : ∃ n, m = n + 1 := ⟨m - 1, by omega⟩
  simp only [Nat.add_sub_cancel, Nat.succ_mul]
  ring

theorem lineSegs_spec {s : UniState} (hns : GlyphNarrow s.tchars.ns) (i : Nat)
    {total : Nat} (ib : Bool) (haligns : List Char) {j : Nat}
    {cells : List (List Str)} {wvs : List Nat} {als : List Char}
    (hf : List.Forall₂ (fun cell w => ∀ l ∈ cell, NarrowStr l = true ∧ l.length ≤ w)
      cells wvs)
    (hals : cells.length ≤ als.length)
    (hj : j + cells.length = total) :
    NarrowStr (lineSegs s i total ib haligns j cells wvs als) = true ∧
    (lineSegs s i total ib haligns j cells wvs als).length =
      wvs.sum + (cells.length - 1) * (2 * s.pad + 1) := by
  match cells, wvs, hf with
  | [], [], _ =>
      constructor
      · rfl
      · simp [lineSegs]
  | cell :: cs, w :: wvs', List.Forall₂.cons hP hf' =>
      match als with
      | [] => exact absurd hals (by simp)
      | a :: als' =>
          have hcl : NarrowStr (cell.getD i []) = true ∧ (cell.getD i []).length ≤ w := by
            rcases getD_mem_or_nil cell i with hm | hm
            · exact hP _ hm
            · rw [hm]
              exact ⟨rfl, by simp⟩
          obtain ⟨ha1, ha2⟩ :=
            alignOne_spec (if ib = true then haligns.getD j 'l' else a) hcl.1 hcl.2
          have hjr : (j + 1) + cs.length = total := by
            simp only [List.length_cons] at hj
            omega
          obtain ⟨hr1, hr2⟩ := @lineSegs_spec s hns i total ib haligns (j + 1)
            cs wvs' als' hf'
            (by simp only [List.length_cons] at hals; omega) hjr
          have hsn : NarrowStr (if j + 1 < total then cellSepOf s else []) = true := by
            split
            · exact cellSep_narrow hns
            · rfl
          have hsl : (if j + 1 < total then cellSepOf s else []).length =
              if j + 1 < total then 2 * s.pad + 1 else 0 := by
            split
            · exact cellSep_len hns
            · rfl
          unfold lineSegs
          simp only []
          constructor
          · exact narrow_append (narrow_append ha1 hsn) hr1
          · by_cases hjt : j + 1 < total
            · have h1 : 1 ≤ cs.length := by
                simp only [List.length_cons] at hj
                omega
              have hkey := segs_arith w wvs'.sum s.pad cs.length h1
              simp only [List.length_append, ha2, hr2, hsl, if_pos hjt,
                List.length_cons, List.sum_cons, List.length_nil,
                Nat.add_sub_cancel, cellSep_len hns]
              omega
            · have h0 : cs.length = 0 := by
                simp only [List.length_cons] at hj
                omega
              have hw0 : wvs' = [] := by
                have hle := hf'.length_eq
                have : wvs'.length = 0 := by omega
                exact List.length_eq_zero.mp this
              subst hw0
              simp only [List.length_append, ha2, hr2, hsl, if_neg hjt,
                List.length_cons, List.sum_cons, h0, List.sum_nil,
                List.length_nil]
              omega

theorem drawLine_spec {s : UniState} {ws : List Nat} {line : List Str} {ib : Bool}
    (hns : GlyphNarrow s.tchars.ns)
    (hlen : line.length = ws.length)
    (hn : ∀ c ∈ line, CellNarrow c = true) (hw : ∀ w ∈ ws, 1 ≤ w)
    (hals : ws.length ≤ (s.alignOpt.getD []).length)
    {out : List Str} (h : drawLine s ws line ib = .ok out) :
    ∀ l ∈ out, NarrowStr l = true ∧
      l.length = ws.sum + (ws.length - 1) * (2 * s.pad + 1) +
        (if s.hasBorder then 2 * (s.pad + 1) else 0) := by
  obtain ⟨c0, hc0, hc0n⟩ := hns
  unfold drawLine at h
  simp only [Bind.bind, Except.bind] at h
  match hsp : splitit s ws line ib with
  | .error e => rw [hsp] at h; simp at h
  | .ok cells =>
      rw [hsp] at h
      simp only [Except.ok.injEq] at h
      have hf := splitit_lines hlen hn hw hsp
      have hclen : cells.length = ws.length := hf.length_eq
      have hlb : NarrowStr
          (if s.hasBorder then s.tchars.ns ++ List.replicate s.pad ' ' else []) = true := by
        split
        · rw [hc0]
          exact narrow_append (narrow_single hc0n) (narrow_replicate_space _)
        · rfl
      have hlbl : (if s.hasBorder then s.tchars.ns ++ List.replicate s.pad ' '
          else []).length = if s.hasBorder then s.pad + 1 else 0 := by
        split
        · rw [hc0]
          simp
        · rfl
      have hrb : NarrowStr
          (if s.hasBorder then List.replicate s.pad ' ' ++ s.tchars.ns else []) = true := by
        split
        · rw [hc0]
          exact narrow_append (narrow_replicate_space _) (narrow_single hc0n)
        · rfl
      have hrbl : (if s.hasBorder then List.replicate s.pad ' ' ++ s.tchars.ns
          else []).length = if s.hasBorder then s.pad + 1 else 0 := by
        split
        · rw [hc0]
          simp
        · rfl
      intro l hl
      rw [← h] at hl
      simp only [List.mem_map, List.mem_range] at hl
      obtain ⟨i, hi, rfl⟩ := hl
      obtain ⟨hs1, hs2⟩ := @lineSegs_spec s ⟨c0, hc0, hc0n⟩ i cells.length ib
        (s.headerAlignOpt.getD []) 0 cells ws (s.alignOpt.getD []) hf
        (by omega) (by omega)
      constructor
      · exact narrow_append (narrow_append hlb hs1) hrb
      · simp only [List.length_append, hs2, hlbl, hrbl]
        rw [← hclen]
        cases hb : s.hasBorder
        · simp only [hb, Bool.false_eq_true, if_false]
          omega
        · simp only [hb, if_true]
          omega

theorem map_repGlyph_lengths {g : Str} {c : Char} (hc : g = [c]) (ws : List Nat) :
    (ws.map (repGlyph g)).map List.length = ws := by
  rw [List.map_map]
  have h1 : ws.map (List.length ∘ repGlyph g) = ws.map id := by
    apply List.map_congr_left
    intro a _
    simp only [Function.comp_apply, hc, repGlyph_single_len, id]
  rw [h1, List.map_id]

theorem buildHline_core (g m lft rgt : Str) (hg : GlyphNarrow g) (hm : GlyphNarrow m)
    (hlft : GlyphNarrow lft) (hrgt : GlyphNarrow rgt) (p : Nat) (border vl : Bool)
    (ws : List Nat) :
    ∀ l ∈ (if border then
        [lft ++ repGlyph g p ++
          joinSep (repGlyph g p ++ (if vl then m else g) ++ repGlyph g p)
            (ws.map (repGlyph g)) ++ repGlyph g p ++ rgt]
      else
        [joinSep (repGlyph g p ++ (if vl then m else g) ++ repGlyph g p)
          (ws.map (repGlyph g))]),
      NarrowStr l = true ∧
        l.length = ws.sum + (ws.length - 1) * (2 * p + 1) +
          (if border then 2 * (p + 1) else 0) := by
  obtain ⟨c, hc, hcn⟩ := hg
  obtain ⟨cm, hcm, hcmn⟩ := hm
  obtain ⟨cl, hcl, hcln⟩ := hlft
  obtain ⟨cr, hcr, hcrn⟩ := hrgt
  subst hc hcm hcl hcr
  have hmidn : NarrowStr (if vl then [cm] else [c]) = true := by
    cases vl
    · simp only [Bool.false_eq_true, if_false]
      exact narrow_single hcn
    · simp only [if_true]
      exact narrow_single hcmn
  have hmidl : (if vl then [cm] else ([c] : Str)).length = 1 := by
    cases vl <;> simp
  have hsepn : NarrowStr (repGlyph [c] p ++ (if vl then [cm] else [c]) ++
      repGlyph [c] p) = true :=
    narrow_append (narrow_append (repGlyph_single_narrow hcn p) hmidn)
      (repGlyph_single_narrow hcn p)
  have hsepl : (repGlyph [c] p ++ (if vl then [cm] else [c]) ++
      repGlyph [c] p).length = 2 * p + 1 := by
    simp only [List.length_append, repGlyph_single_len, hmidl]
    omega
  have hjn : NarrowStr (joinSep (repGlyph [c] p ++ (if vl then [cm] else [c]) ++
      repGlyph [c] p) (ws.map (repGlyph [c]))) = true := by
    apply joinSep_narrow hsepn
    intro l hl
    obtain ⟨w, _, rfl⟩ := List.mem_map.mp hl
    exact repGlyph_single_narrow hcn w
  have hjl : (joinSep (repGlyph [c] p ++ (if vl then [cm] else [c]) ++
      repGlyph [c] p) (ws.map (repGlyph [c]))).length =
      ws.sum + (ws.length - 1) * (2 * p + 1) := by
    rw [joinSep_len, map_repGlyph_lengths rfl, hsepl, List.length_map]
  cases border
  · simp only [Bool.false_eq_true, if_false]
    intro l hl
    simp only [List.mem_singleton] at hl
    subst hl
    refine ⟨hjn, ?_⟩
    rw [hjl]
    omega
  · simp only [if_true]
    intro l hl
    simp only [List.mem_singleton] at hl
    subst hl
    constructor
    · exact narrow_append (narrow_append (narrow_append (narrow_append
        (narrow_single hcln) (repGlyph_single_narrow hcn p)) hjn)
        (repGlyph_single_narrow hcn p)) (narrow_single hcrn)
    · simp only [List.length_append, repGlyph_single_len, hjl,
        List.length_singleton]
      omega

theorem buildHline_spec {s : UniState} {ws : List Nat} (ib : Bool) (loc : HlineLoc)
    (ht : TCharsNarrow s.tchars)
    (hst : s.style ≠ "none".data) :
    ∀ l ∈ buildHline s ws ib loc, NarrowStr l = true ∧
      l.length = ws.sum + (ws.length - 1) * (2 * s.pad + 1) +
        (if s.hasBorder then 2 * (s.pad + 1) else 0) := by
  obtain ⟨hew, hns, hse, hsw, hne, hnw, hnse2, hnsw2, hsew, hnew, hnsew2, hhew,
    hhnse, hhnsw, hhnsew⟩ := ht
  unfold buildHline
  rw [if_neg hst]
  cases ib <;> cases loc
  · exact buildHline_core _ _ _ _ hew hsew hse hsw s.pad s.hasBorder (hasVlines s) ws
  · exact buildHline_core _ _ _ _ hew hnsew2 hnse2 hnsw2 s.pad s.hasBorder
      (hasVlines s) ws
  · exact buildHline_core _ _ _ _ hew hnew hne hnw s.pad s.hasBorder (hasVlines s) ws
  · exact buildHline_core _ _ _ _ hhew hsew hse hsw s.pad s.hasBorder (hasVlines s) ws
  · exact buildHline_core _ _ _ _ hhew hhnsew hhnse hhnsw s.pad s.hasBorder
      (hasVlines s) ws
  · exact buildHline_core _ _ _ _ hhew hnew hne hnw s.pad s.hasBorder (hasVlines s) ws

theorem buildHline_mem {s : UniState} {ws : List Nat} (ib : Bool) (loc : HlineLoc)
    (ht : TCharsNarrow s.tchars) :
    ∀ l ∈ buildHline s ws ib loc, NarrowStr l = true ∧
      l.length = ws.sum + (ws.length - 1) * (2 * s.pad + 1) +
        (if s.hasBorder then 2 * (s.pad + 1) else 0) := by
  by_cases hst : s.style = "none".data
  · intro l hl
    unfold buildHline at hl
    rw [if_pos hst] at hl
    simp at hl
  · exact buildHline_spec ib loc ht hst

theorem checkAlign_fills {s s2 : UniState} {n : Nat} (hrs : s.rowSize = some n)
    (hha : ∀ a, s.headerAlignOpt = some a → a.length = n)
    (hal : ∀ a, s.alignOpt = some a → a.length = n)
    (hva : ∀ a, s.valignOpt = some a → a.length = n)
    (h : checkAlign s = .ok s2) :
    (s2.headerAlignOpt.getD []).length = n ∧ (s2.alignOpt.getD []).length = n ∧
      (s2.valignOpt.getD []).length = n := by
  unfold checkAlign at h
  rcases hh : s.headerAlignOpt with _ | ha2 <;>
    rcases hA : s.alignOpt with _ | al2 <;>
      rcases hv : s.valignOpt with _ | va2 <;>
        rw [hh, hA, hv, hrs] at h <;>
          simp [Bind.bind, Except.bind] at h <;>
            subst h <;>
              simp_all

theorem bodyLines_spec {s : UniState} {ws : List Nat} {rows : List (List Str)}
    (ht : TCharsNarrow s.tchars)
    (hrows : ∀ r ∈ rows, r.length = ws.length ∧ ∀ c ∈ r, CellNarrow c = true)
    (hw : ∀ w ∈ ws, 1 ≤ w)
    (hals : ws.length ≤ (s.alignOpt.getD []).length)
    {out : List Str} (h : bodyLines s ws rows = .ok out) :
    ∀ l ∈ out, NarrowStr l = true ∧
      l.length = ws.sum + (ws.length - 1) * (2 * s.pad + 1) +
        (if s.hasBorder then 2 * (s.pad + 1) else 0) := by
  match rows with
  | [] =>
      simp [bodyLines] at h
      subst h
      intro l hl
      simp at hl
  | [r] =>
      have hr := hrows r (List.mem_cons_self _ _)
      exact drawLine_spec ht.2.1 hr.1 hr.2 hw hals h
  | r :: r2 :: rest =>
      unfold bodyLines at h
      simp only [Bind.bind, Except.bind] at h
      match hdl : drawLine s ws r false with
      | .error e => rw [hdl] at h; simp at h
      | .ok rl =>
          rw [hdl] at h
          match hbl : bodyLines s ws (r2 :: rest) with
          | .error e => rw [hbl] at h; simp at h
          | .ok more =>
              rw [hbl] at h
              simp at h
              subst h
              intro l hl
              rcases List.mem_append.mp hl with h1 | h1
              · have hr := hrows r (List.mem_cons_self _ _)
                exact drawLine_spec ht.2.1 hr.1 hr.2 hw hals hdl l h1
              · rcases List.mem_append.mp h1 with h2 | h2
                · by_cases hhl : hasHlines s = true
                  · rw [if_pos hhl] at h2
                    exact buildHline_mem false .mid ht l h2
                  · rw [if_neg hhl] at h2
                    simp at h2
                · exact bodyLines_spec ht
                    (fun x hx => hrows x (List.mem_cons_of_mem _ hx)) hw hals hbl l h2

theorem drawBody_spec {s0 : UniState} {n : Nat} {ws : List Nat}
    {lines : List Str} {s2 : UniState}
    (hrs : s0.rowSize = some n)
    (hha : ∀ a, s0.headerAlignOpt = some a → a.length = n)
    (hal : ∀ a, s0.alignOpt = some a → a.length = n)
    (hva : ∀ a, s0.valignOpt = some a → a.length = n)
    (hhead : s0.header = [] ∨
      (s0.header.length = n ∧ ∀ c ∈ s0.header, CellNarrow c = true))
    (hrows : ∀ r ∈ s0.rows, r.length = n ∧ ∀ c ∈ r, CellNarrow c = true)
    (ht : TCharsNarrow s0.tchars)
    (hwopt : s0.widthOpt = some ws)
    (hwlen : ws.length = n) (hwpos : ∀ w ∈ ws, 1 ≤ w)
    (h : drawBody s0 = .ok (some lines, s2)) :
    ∀ l ∈ lines, NarrowStr l = true ∧
      l.length = ws.sum + (ws.length - 1) * (2 * s0.pad + 1) +
        (if s0.hasBorder then 2 * (s0.pad + 1) else 0) := by
  unfold drawBody at h
  simp only [Bind.bind, Except.bind] at h
  match hca : checkAlign s0 with
  | .error e => rw [hca] at h; simp at h
  | .ok s1 =>
      rw [hca] at h
      simp only [] at h
      obtain ⟨hfr1, hfr2, hfr3, hfr4, hfr5, hfr6, hfr7, hfr8, hfr9, hfr10,
        hfr11, hfr12, hfr13⟩ := checkAlign_frame hca
      obtain ⟨hfill1, hfill2, hfill3⟩ := checkAlign_fills hrs hha hal hva hca
      have hws1 : s1.widthOpt.getD [] = ws := by
        rw [hfr11, hwopt]
        rfl
      rw [hws1] at h
      have ht1 : TCharsNarrow s1.tchars := by
        rw [hfr9]
        exact ht
      have hals1 : ws.length ≤ (s1.alignOpt.getD []).length := by
        rw [hfill2]
        omega
      have hrows1 : ∀ r ∈ s1.rows, r.length = ws.length ∧
          ∀ c ∈ r, CellNarrow c = true := by
        rw [hfr1]
        intro r hr
        obtain ⟨h1, h2⟩ := hrows r hr
        exact ⟨by omega, h2⟩
      have htopbot : ∀ (loc : HlineLoc),
          ∀ l ∈ (if s1.hasBorder then buildHline s1 ws false loc else []),
          NarrowStr l = true ∧
            l.length = ws.sum + (ws.length - 1) * (2 * s1.pad + 1) +
              (if s1.hasBorder then 2 * (s1.pad + 1) else 0) := by
        intro loc l hl
        split at hl
        · exact buildHline_mem false loc ht1 l hl
        · simp at hl
      by_cases hhe : s1.header.isEmpty = true
      · rw [hhe] at h
        simp only [Bool.not_true, Bool.false_eq_true, if_false, pure,
          Except.pure] at h
        match hbl : bodyLines s1 ws s1.rows with
        | .error e => rw [hbl] at h; simp at h
        | .ok body =>
            rw [hbl] at h
            simp only [Except.ok.injEq, Prod.mk.injEq, Option.some.injEq] at h
            obtain ⟨hlines, hs2⟩ := h
            subst hlines
            intro l hl
            have hbody := bodyLines_spec ht1 hrows1 hwpos hals1 hbl
            have hgoal : NarrowStr l = true ∧
                l.length = ws.sum + (ws.length - 1) * (2 * s1.pad + 1) +
                  (if s1.hasBorder then 2 * (s1.pad + 1) else 0) := by
              rcases List.mem_append.mp hl with h1 | h1
              · rcases List.mem_append.mp h1 with h2 | h2
                · rcases List.mem_append.mp h2 with h3 | h3
                  · exact htopbot .top l h3
                  · simp at h3
                · exact hbody l h2
              · exact htopbot .bot l h1
            rw [hfr5, hfr12] at hgoal
            exact hgoal
      · rw [Bool.not_eq_true] at hhe
        rw [hhe] at h
        simp only [Bool.not_false, if_true] at h
        match hdlh : drawLine s1 ws s1.header true with
        | .error e => rw [hdlh] at h; simp at h
        | .ok hdl1 =>
            rw [hdlh] at h
            simp only [pure, Except.pure] at h
            match hbl : bodyLines s1 ws s1.rows with
            | .error e => rw [hbl] at h; simp at h
            | .ok body =>
                rw [hbl] at h
                simp only [Except.ok.injEq, Prod.mk.injEq, Option.some.injEq] at h
                obtain ⟨hlines, hs2⟩ := h
                subst hlines
                have hhead1 : s1.header.length = ws.length ∧
                    ∀ c ∈ s1.header, CellNarrow c = true := by
                  rw [hfr2]
                  rcases hhead with h0 | ⟨hl0, hn0⟩
                  · exfalso
                    rw [hfr2, h0] at hhe
                    simp at hhe
                  · exact ⟨by omega, hn0⟩
                have hhdr := drawLine_spec ht1.2.1 hhead1.1 hhead1.2 hwpos hals1 hdlh
                have hbody := bodyLines_spec ht1 hrows1 hwpos hals1 hbl
                intro l hl
                have hgoal : NarrowStr l = true ∧
                    l.length = ws.sum + (ws.length - 1) * (2 * s1.pad + 1) +
                      (if s1.hasBorder then 2 * (s1.pad + 1) else 0) := by
                  rcases List.mem_append.mp hl with h1 | h1
                  · rcases List.mem_append.mp h1 with h2 | h2
                    · rcases List.mem_append.mp h2 with h3 | h3
                      · exact htopbot .top l h3
                      · rcases List.mem_append.mp h3 with h4 | h4
                        · exact hhdr l h4
                        · split at h4
                          · exact buildHline_mem true .mid ht1 l h4
                          · simp at h4
                    · exact hbody l h2
                  · exact htopbot .bot l h1
                rw [hfr5, hfr12] at hgoal
                exact hgoal

theorem computeCache_eff {s : UniState} {ws : List Nat}
    (h : effWidths s = .ok ws) :
    computeColsWidthCache s = .ok { s with widthOpt := some ws } := by
  unfold effWidths at h
  unfold computeColsWidthCache
  match hwo : s.widthOpt with
  | some ws0 =>
      rw [hwo] at h
      simp at h
      subst h
      simp only [hwo, Option.isSome_some, if_true]
      have he : { s with widthOpt := some ws0 } = s := by
        rw [← hwo]
      rw [he]
  | none =>
      rw [hwo] at h
      simp only [] at h
      simp only [Option.isSome_none, Bool.false_eq_true, if_false, Bind.bind,
        Except.bind]
      rw [h]

theorem drawBodySpecAt {s : UniState} {n : Nat} {ws : List Nat}
    {lines : List Str} {s2 : UniState}
    (hrs : s.rowSize = some n)
    (hha : ∀ a, s.headerAlignOpt = some a → a.length = n)
    (hal : ∀ a, s.alignOpt = some a → a.length = n)
    (hva : ∀ a, s.valignOpt = some a → a.length = n)
    (hhead : s.header = [] ∨
      (s.header.length = n ∧ ∀ c ∈ s.header, CellNarrow c = true))
    (hrows : ∀ r ∈ s.rows, r.length = n ∧ ∀ c ∈ r, CellNarrow c = true)
    (ht : TCharsNarrow s.tchars)
    (hwlen : ws.length = n) (hwpos : ∀ w ∈ ws, 1 ≤ w)
    (h : drawBody { s with widthOpt := some ws } = .ok (some lines, s2)) :
    ∀ l ∈ lines, NarrowStr l = true ∧
      l.length = ws.sum + (ws.length - 1) * (2 * s.pad + 1) +
        (if s.hasBorder then 2 * (s.pad + 1) else 0) :=
  @drawBody_spec { s with widthOpt := some ws } n ws lines s2 hrs hha hal hva
    hhead hrows ht rfl hwlen hwpos h

/-- C6 (amended): every physical line of `draw()`'s output has the same
display width — the column widths plus separator, padding and border
overhead — provided every cell consists of narrow printable characters
(newlines allowed), every border glyph is a single narrow character,
every effective column width is at least one, and the alignment arrays,
when set, match the arity. -/
theorem row_width_uniformity_narrow {s : UniState} {n : Nat} {ws : List Nat}
    {lines : List Str} {s2 : UniState}
    (hrs : s.rowSize = some n)
    (hha : ∀ a, s.headerAlignOpt = some a → a.length = n)
    (hal : ∀ a, s.alignOpt = some a → a.length = n)
    (hva : ∀ a, s.valignOpt = some a → a.length = n)
    (hhead : s.header = [] ∨
      (s.header.length = n ∧ ∀ c ∈ s.header, CellNarrow c = true))
    (hrows : ∀ r ∈ s.rows, r.length = n ∧ ∀ c ∈ r, CellNarrow c = true)
    (ht : TCharsNarrow s.tchars)
    (heff : effWidths s = .ok ws)
    (hwlen : ws.length = n) (hwpos : ∀ w ∈ ws, 1 ≤ w)
    (hdraw : draw s = .ok (some lines, s2)) :
    ∀ l ∈ lines, slcLen l =
      ((ws.sum + (ws.length - 1) * (2 * s.pad + 1) +
        (if s.hasBorder then 2 * (s.pad + 1) else 0) : Nat) : Int) := by
  unfold draw at hdraw
  split at hdraw
  · simp at hdraw
  · simp only [Bind.bind, Except.bind] at hdraw
    rw [computeCache_eff heff] at hdraw
    simp only [] at hdraw
    have hspec := @drawBodySpecAt s n ws lines s2 hrs hha hal hva hhead hrows ht
      hwlen hwpos hdraw
    intro l hl
    obtain ⟨h1, h2⟩ := hspec l hl
    rw [narrow_slcLen h1, h2]

theorem glyphNarrow_of (g : Str) (h : (g.length = 1 && NarrowStr g) = true) :
    GlyphNarrow g := by
  match g with
  | [c] =>
      refine ⟨c, rfl, ?_⟩
      simp [NarrowStr] at h
      exact h
  | [] => simp at h
  | c :: d :: rest => simp at h

theorem c6_tchars_narrow : TCharsNarrow c6NarrowState.tchars := by
  refine ⟨?_, ?_, ?_, ?_, ?_, ?_, ?_, ?_, ?_, ?_, ?_, ?_, ?_, ?_, ?_⟩ <;>
    exact glyphNarrow_of _ (by decide)

/-- C6 witness: on the narrow two-column table the header row line has
display width 9 = 1 + 1 + one separator (3) + border overhead (4), the
common width of all five output lines. -/
theorem row_width_uniformity_narrow_witness :
    slcLen "│ A │ B │".data = ((9 : Nat) : Int) :=
  @row_width_uniformity_narrow c6NarrowState 2 [1, 1] c6WitLines c6OutState
    rfl
    (fun a ha => Option.noConfusion ha)
    (fun a ha => Option.noConfusion ha)
    (fun a ha => Option.noConfusion ha)
    (Or.inr (by decide))
    (by decide)
    c6_tchars_narrow
    (by decide)
    rfl
    (by decide)
    (by decide)
    "│ A │ B │".data
    (by decide)

end UniTable
